import Mathlib

/-!
Shallow embedding of the tensor-box-visualizer layout engine
(`src/lib/layout.ts`, final variant): `getSampledIndices`, `getValue`,
`computeLayout` with its tiling / slicing modes, axis-cycling tile steps
and global centering.  JavaScript numbers are modelled exactly: every
quantity the engine computes is an integer or a half-integer, so `Int`
and `ℚ` represent them without rounding; `Math.round` on the real-valued
ratio `i * (size-1) / (maxCells-1)` is modelled as exact rational
round-half-up.
-/

set_option maxHeartbeats 1000000

namespace TensorBoxViz

/-- JavaScript values reachable by the value-lookup walk: a number, an
array, or anything else (string, object, null, boolean ...). -/
inductive JsVal : Type
  | num (q : ℚ)
  | arr (elems : List JsVal)
  | other

/-- The walk of `getValue`: follow each successive index as a
nested-array index; fail when the current node is not an array or the
index is out of bounds (`!Array.isArray(curr) || curr.length <= idx`). -/
def walk : JsVal → List Nat → Option JsVal
  | curr, [] => some curr
  | JsVal.arr xs, idx :: rest =>
      if h : idx < xs.length then walk (xs.get ⟨idx, h⟩) rest else none
  | JsVal.num _, _ :: _ => none
  | JsVal.other, _ :: _ => none

/-- `getValue(data, indexPath)`: `undefined` unless `data` is an array,
the walk succeeds, and the final node is a number. -/
def getValue (data : Option JsVal) (path : List Nat) : Option ℚ :=
  match data with
  | some (JsVal.arr xs) =>
      match walk (JsVal.arr xs) path with
      | some (JsVal.num q) => some q
      | _ => none
  | _ => none

/-- `Math.round(num / den)` for natural `num`, positive `den`:
round half away from zero, which for nonnegative values is
`⌊num/den + 1/2⌋ = (2*num + den) / (2*den)` in integer division. -/
def jsRound (num den : Nat) : Nat := (2 * num + den) / (2 * den)

/-- `Array.from(new Set(xs))`: de-duplicate, keeping the first
occurrence of each value in insertion order. -/
def dedupFirst : List Nat → List Nat
  | [] => []
  | x :: xs => x :: (dedupFirst xs).filter (fun y => y ≠ x)

/-- `getSampledIndices(size, maxCells)` from the source: full range when
`size ≤ maxCells`; `[0]` when `maxCells < 2`; otherwise round `i * step`
for `i < maxCells`, `step = (size-1)/(maxCells-1)`, de-duplicated. -/
def getSampledIndices (size maxCells : Nat) : List Nat :=
  if size ≤ maxCells then List.range size
  else if maxCells < 2 then [0]
  else dedupFirst ((List.range maxCells).map
    (fun i => jsRound (i * (size - 1)) (maxCells - 1)))

inductive Mode : Type
  | tiling
  | slicing
deriving DecidableEq

inductive Axis : Type
  | x
  | y
  | z
deriving DecidableEq

/-- `LayoutConfig` from the source.  `sliceIndices` (a
`Record<number, number>`) is modelled as an association list. -/
structure LayoutConfig where
  shape : List Nat
  spatialDims : Option Nat × Option Nat × Option Nat
  outerDims : List Nat
  mode : Mode
  sliceIndices : List (Nat × Int)
  maxCellsPerDim : Nat
  data : Option JsVal := none

/-- `BoxInstance` from the source. -/
structure BoxInstance where
  id : String
  position : ℚ × ℚ × ℚ
  indexPath : List Nat
  value : Option ℚ
deriving DecidableEq

/-- `sliceIndices[d]` record lookup. -/
def lookupSlice (si : List (Nat × Int)) (d : Nat) : Option Int :=
  (si.find? (fun p => p.1 = d)).map (fun p => p.2)

/-- `Math.max(0, Math.min(idx, size - 1))`, converted back to an index. -/
def clampIndex (i : Int) (size : Nat) : Nat :=
  (max 0 (min i ((size : Int) - 1))).toNat

/-- In slicing mode every outer dimension is a page dimension; in tiling
mode there are none. -/
def activePageDims (cfg : LayoutConfig) : List Nat :=
  match cfg.mode with
  | Mode.slicing => cfg.outerDims
  | Mode.tiling => []

/-- In tiling mode every outer dimension is a tile dimension; in slicing
mode there are none. -/
def activeTileDims (cfg : LayoutConfig) : List Nat :=
  match cfg.mode with
  | Mode.slicing => []
  | Mode.tiling => cfg.outerDims

/-- The per-dimension sampled index sets (`dimIndices` in the source):
a single clamped forced index for page dimensions, the downsampled
range otherwise. -/
def dimIndices (cfg : LayoutConfig) : List (List Nat) :=
  cfg.shape.mapIdx (fun d size =>
    if d ∈ activePageDims cfg then
      [clampIndex ((lookupSlice cfg.sliceIndices d).getD 0) size]
    else
      getSampledIndices size cfg.maxCellsPerDim)

/-- `blockSizeX/Y/Z`: length of the sampled set of the dimension bound
to a spatial slot, 1 when the slot is unbound. -/
def blockSize (D : List (List Nat)) (slot : Option Nat) : Nat :=
  match slot with
  | none => 1
  | some d => (D.getD d []).length

/-- The fixed inter-block spacing constant. -/
def SPACING : Nat := 2

/-- Build the `tileSteps` map: cycle tile dimensions through axes
Y (i%3=0), X (i%3=1), Z (i%3=2), compounding each axis's running step
as `step * numCells + SPACING`. -/
def tileStepsAux (D : List (List Nat)) :
    List Nat → Nat → Nat → Nat → Nat → List (Nat × Axis × Nat)
  | [], _, _, _, _ => []
  | d :: rest, i, sy, sx, sz =>
    let n := (D.getD d []).length
    if i % 3 = 0 then
      (d, Axis.y, sy) :: tileStepsAux D rest (i + 1) (sy * n + SPACING) sx sz
    else if i % 3 = 1 then
      (d, Axis.x, sx) :: tileStepsAux D rest (i + 1) sy (sx * n + SPACING) sz
    else
      (d, Axis.z, sz) :: tileStepsAux D rest (i + 1) sy sx (sz * n + SPACING)

/-- Base step of the Y axis: `blockSizeY + SPACING`. -/
def stepYBase (cfg : LayoutConfig) : Nat :=
  blockSize (dimIndices cfg) cfg.spatialDims.2.1 + SPACING

/-- Base step of the X axis: `blockSizeX + SPACING`. -/
def stepXBase (cfg : LayoutConfig) : Nat :=
  blockSize (dimIndices cfg) cfg.spatialDims.1 + SPACING

/-- Base step of the Z axis: `blockSizeZ + SPACING`. -/
def stepZBase (cfg : LayoutConfig) : Nat :=
  blockSize (dimIndices cfg) cfg.spatialDims.2.2 + SPACING

/-- The `tileSteps` map, built only in tiling mode. -/
def tileSteps (cfg : LayoutConfig) : List (Nat × Axis × Nat) :=
  match cfg.mode with
  | Mode.slicing => []
  | Mode.tiling =>
      tileStepsAux (dimIndices cfg) cfg.outerDims 0
        (stepYBase cfg) (stepXBase cfg) (stepZBase cfg)

/-- `tileSteps.get(dim)`. -/
def lookupStep (ts : List (Nat × Axis × Nat)) (d : Nat) : Option (Axis × Nat) :=
  (ts.find? (fun e => e.1 = d)).map (fun e => e.2)

/-- `Array.indexOf`: position of the first occurrence, `-1` if absent. -/
def jsIndexOf (l : List Nat) (x : Nat) : Int :=
  if x ∈ l then (l.indexOf x : Int) else -1

/-- Rank-within-sample of the index an index path carries at a spatial
slot's dimension (`dimIndices[s].indexOf(indexPath[s])`, 0 for an
unbound slot). -/
def spatialRank (D : List (List Nat)) (slot : Option Nat) (p : List Nat) : Int :=
  match slot with
  | none => 0
  | some d => jsIndexOf (D.getD d []) (p.getD d 0)

/-- Accumulated tile offsets `(addX, addY, addZ)`: for each tile
dimension, rank-within-sample times its assigned step, accumulated onto
its assigned axis. -/
def tileAdds (D : List (List Nat)) (ts : List (Nat × Axis × Nat)) :
    List Nat → List Nat → Int × Int × Int
  | [], _ => (0, 0, 0)
  | d :: rest, p =>
    let acc := tileAdds D ts rest p
    match lookupStep ts d with
    | none => acc
    | some (Axis.x, s) =>
        (acc.1 + jsIndexOf (D.getD d []) (p.getD d 0) * (s : Int), acc.2.1, acc.2.2)
    | some (Axis.y, s) =>
        (acc.1, acc.2.1 + jsIndexOf (D.getD d []) (p.getD d 0) * (s : Int), acc.2.2)
    | some (Axis.z, s) =>
        (acc.1, acc.2.1, acc.2.2 + jsIndexOf (D.getD d []) (p.getD d 0) * (s : Int))

/-- The uncentered position of one index path:
`x = rX + addX`, `y = -rY - addY`, `z = -rZ - addZ`. -/
def rawPosition (cfg : LayoutConfig) (p : List Nat) : Int × Int × Int :=
  let D := dimIndices cfg
  let rX := spatialRank D cfg.spatialDims.1 p
  let rY := spatialRank D cfg.spatialDims.2.1 p
  let rZ := spatialRank D cfg.spatialDims.2.2 p
  let a := tileAdds D (tileSteps cfg) (activeTileDims cfg) p
  (rX + a.1, -rY - a.2.1, -rZ - a.2.2)

/-- Decimal digits of a natural number, as `String(n)` produces them. -/
def natChars (n : Nat) : List Char :=
  if n < 10 then [Nat.digitChar n]
  else natChars (n / 10) ++ [Nat.digitChar (n % 10)]
termination_by n
decreasing_by
  have h10 : 10 ≤ n := Nat.le_of_not_lt (by assumption)
  exact Nat.div_lt_self (Nat.lt_of_lt_of_le (by norm_num) h10) (by norm_num)

/-- Numeric value of a decimal digit character. -/
def charVal (c : Char) : Nat := c.toNat - 48

/-- Decode a decimal digit string back into a natural number (used only
to prove `natChars` injective). -/
def decodeDigits (l : List Char) : Nat :=
  l.foldl (fun acc c => acc * 10 + charVal c) 0

/-- `indexPath.join(',')` at the character level. -/
def encodePath : List Nat → List Char
  | [] => []
  | [n] => natChars n
  | n :: rest => natChars n ++ ',' :: encodePath rest

/-- The instance `id`: the comma-joined index path. -/
def pathId (p : List Nat) : String := String.mk (encodePath p)

/-- The Cartesian product of the per-dimension index sets, dimension 0
outermost, exactly in the order `recurse` emits paths. -/
def cartesianProd : List (List Nat) → List (List Nat)
  | [] => [[]]
  | l :: rest => l.flatMap (fun v => (cartesianProd rest).map (fun p => v :: p))

/-- The instance `recurse` pushes for one full index path. -/
def mkInstance (cfg : LayoutConfig) (p : List Nat) : BoxInstance :=
  { id := pathId p
    position := (((rawPosition cfg p).1 : ℚ), ((rawPosition cfg p).2.1 : ℚ),
      ((rawPosition cfg p).2.2 : ℚ))
    indexPath := p
    value := getValue cfg.data p }

/-- Minimum of a list of rationals (the fold the source runs starting
from `Infinity`; 0 for the empty list, which the source never reaches). -/
def listMin : List ℚ → ℚ
  | [] => 0
  | q :: rest => rest.foldl min q

/-- Maximum of a list of rationals (fold starting from `-Infinity`). -/
def listMax : List ℚ → ℚ
  | [] => 0
  | q :: rest => rest.foldl max q

/-- The bounding-box center on the X axis, `(minX + maxX) / 2`. -/
def centerX (instances : List BoxInstance) : ℚ :=
  (listMin (instances.map (fun i => i.position.1)) +
    listMax (instances.map (fun i => i.position.1))) / 2

/-- The bounding-box center on the Y axis. -/
def centerY (instances : List BoxInstance) : ℚ :=
  (listMin (instances.map (fun i => i.position.2.1)) +
    listMax (instances.map (fun i => i.position.2.1))) / 2

/-- The bounding-box center on the Z axis. -/
def centerZ (instances : List BoxInstance) : ℚ :=
  (listMin (instances.map (fun i => i.position.2.2)) +
    listMax (instances.map (fun i => i.position.2.2))) / 2

/-- `centerPositions`: subtract the bounding-box center from every
position; the empty list is returned unchanged. -/
def centerPositions (instances : List BoxInstance) : List BoxInstance :=
  match instances with
  | [] => []
  | _ :: _ =>
    instances.map (fun inst =>
      { inst with position :=
          (inst.position.1 - centerX instances,
           inst.position.2.1 - centerY instances,
           inst.position.2.2 - centerZ instances) })

/-- `computeLayout`: empty for an empty shape; otherwise enumerate the
Cartesian product of the sampled index sets, build one instance per
path, and center the whole set. -/
def computeLayout (cfg : LayoutConfig) : List BoxInstance :=
  if cfg.shape = [] then []
  else centerPositions ((cartesianProd (dimIndices cfg)).map (mkInstance cfg))

/-- The three spatial slots as a list. -/
def spatialList (cfg : LayoutConfig) : List (Option Nat) :=
  [cfg.spatialDims.1, cfg.spatialDims.2.1, cfg.spatialDims.2.2]

/-- The dimension indices actually bound to spatial slots. -/
def spatialIdx (cfg : LayoutConfig) : List Nat :=
  (spatialList cfg).filterMap id

/-- Rank-within-sample as a natural number (defined for index paths
whose entry at `d` is a member of the sampled set). -/
def rankNat (D : List (List Nat)) (p : List Nat) (d : Nat) : Nat :=
  (D.getD d []).indexOf (p.getD d 0)

/-- Natural-number version of `spatialRank`. -/
def spatialRankNat (D : List (List Nat)) (slot : Option Nat) (p : List Nat) : Nat :=
  match slot with
  | none => 0
  | some d => rankNat D p d

/-- The tile entries of `tileSteps` assigned to one axis, as
`(dimension, sampled count, step)` triples in assignment order. -/
def stepsOn (D : List (List Nat)) (a : Axis) (ts : List (Nat × Axis × Nat)) :
    List (Nat × Nat × Nat) :=
  (ts.filter (fun e => e.2.1 = a)).map
    (fun e => (e.1, (D.getD e.1 []).length, e.2.2))

/-- The compounding-step discipline of one axis: each entry's step is
the axis's running step, which is then updated to
`step * count + SPACING`. -/
def StepChain : Nat → List (Nat × Nat × Nat) → Prop
  | _, [] => True
  | c, (_, n, s) :: t => s = c ∧ StepChain (s * n + SPACING) t

/-- The final running step after all entries of an axis. -/
def evolveStep : Nat → List (Nat × Nat × Nat) → Nat
  | c, [] => c
  | _, (_, n, s) :: t => evolveStep (s * n + SPACING) t

/-- The axis offset a path accumulates over one axis's tile entries. -/
def tileSumN (D : List (List Nat)) (p : List Nat)
    (entries : List (Nat × Nat × Nat)) : Nat :=
  (entries.map (fun e => rankNat D p e.1 * e.2.2)).sum

/-- A default instance used only as the out-of-range fallback of
`List.getD` in statements about two emitted instances. -/
def dummyInst : BoxInstance :=
  { id := "", position := (0, 0, 0), indexPath := [], value := none }

/-- A valid configuration: positive sizes, spatial slots distinct valid
dimension indices, `outerDims` exactly the remaining indices without
repetition. -/
def ValidConfig (cfg : LayoutConfig) : Prop :=
  (∀ s ∈ cfg.shape, 0 < s) ∧
  (∀ d ∈ spatialIdx cfg, d < cfg.shape.length) ∧
  (spatialIdx cfg).Nodup ∧
  cfg.outerDims.Nodup ∧
  (∀ d ∈ cfg.outerDims, d < cfg.shape.length ∧ d ∉ spatialIdx cfg) ∧
  (∀ d ∈ List.range cfg.shape.length, d ∉ spatialIdx cfg → d ∈ cfg.outerDims)

instance decValidConfig (cfg : LayoutConfig) : Decidable (ValidConfig cfg) := by
  unfold ValidConfig
  exact inferInstance

/-- Walking `v` by each successive index keeps landing on an array with
the index in bounds, and the final node reached is the number `q`. -/
inductive NumAt : JsVal → List Nat → ℚ → Prop where
  | here (q : ℚ) : NumAt (JsVal.num q) [] q
  | step {xs : List JsVal} {idx : Nat} {rest : List Nat} {q : ℚ}
      (h : idx < xs.length) :
      NumAt (xs.get ⟨idx, h⟩) rest q → NumAt (JsVal.arr xs) (idx :: rest) q

/-- Nested data `[[1,2],[3,4]]` from the spec's round-trip example. -/
def demoData : JsVal :=
  JsVal.arr [JsVal.arr [JsVal.num 1, JsVal.num 2],
    JsVal.arr [JsVal.num 3, JsVal.num 4]]

/-- The repository test's `[4,4,4]` all-spatial configuration. -/
def cfg444 : LayoutConfig :=
  { shape := [4, 4, 4], spatialDims := (some 0, some 1, some 2), outerDims := [],
    mode := Mode.tiling, sliceIndices := [], maxCellsPerDim := 8 }

/-- The repository test's `[2,3,4,5]` tiling configuration. -/
def cfgTiling : LayoutConfig :=
  { shape := [2, 3, 4, 5], spatialDims := (some 1, some 2, some 3), outerDims := [0],
    mode := Mode.tiling, sliceIndices := [], maxCellsPerDim := 8 }

/-- The repository test's `[2,3,4,5]` slicing configuration with
`sliceIndices = {0: 1}`. -/
def cfgSlicing : LayoutConfig :=
  { shape := [2, 3, 4, 5], spatialDims := (some 1, some 2, some 3), outerDims := [0],
    mode := Mode.slicing, sliceIndices := [(0, 1)], maxCellsPerDim := 8 }

/-- The repository test's one-dimensional `[10]` configuration. -/
def cfgLine : LayoutConfig :=
  { shape := [10], spatialDims := (some 0, none, none), outerDims := [],
    mode := Mode.tiling, sliceIndices := [], maxCellsPerDim := 10 }

/-! ### Properties of the downsampler -/

theorem dedupFirst_sublist (l : List Nat) : List.Sublist (dedupFirst l) l := by
  induction l with
  | nil => simp [dedupFirst]
  | cons x xs ih =>
      rw [dedupFirst]
      exact ((List.filter_sublist _).trans ih).cons₂ x

theorem mem_dedupFirst {a : Nat} : ∀ {l : List Nat}, a ∈ dedupFirst l ↔ a ∈ l := by
  intro l
  induction l with
  | nil => simp [dedupFirst]
  | cons x xs ih =>
      rw [dedupFirst]
      by_cases hax : a = x
      · subst hax
        simp
      · simp only [List.mem_cons, List.mem_filter, ih, decide_eq_true_eq]
        constructor
        · rintro (h | ⟨h, _⟩)
          · exact Or.inl h
          · exact Or.inr h
        · rintro (h | h)
          · exact Or.inl h
          · exact Or.inr ⟨h, hax⟩

theorem dedupFirst_nodup (l : List Nat) : (dedupFirst l).Nodup := by
  induction l with
  | nil => simp [dedupFirst]
  | cons x xs ih =>
      rw [dedupFirst]
      refine List.nodup_cons.mpr ⟨?_, ih.filter _⟩
      intro hx
      have := List.mem_filter.mp hx
      simp at this

theorem jsRound_mono (den : Nat) {a b : Nat} (h : a ≤ b) :
    jsRound a den ≤ jsRound b den :=
  Nat.div_le_div_right (by omega)

theorem jsRound_zero (den : Nat) : jsRound 0 den = 0 := by
  cases den with
  | zero => rfl
  | succ d => exact Nat.div_eq_of_lt (by omega)

theorem jsRound_mul (k den : Nat) (h : 0 < den) : jsRound (k * den) den = k := by
  unfold jsRound
  have h2 : 2 * (k * den) + den = 2 * den * k + den := by ring
  rw [h2, Nat.mul_add_div (by omega), Nat.div_eq_of_lt (by omega), Nat.add_zero]

theorem jsRound_zero_mul (a den : Nat) : jsRound (0 * a) den = 0 := by
  rw [Nat.zero_mul]
  exact jsRound_zero den

theorem getSampledIndices_nodup (size cap : Nat) :
    (getSampledIndices size cap).Nodup := by
  unfold getSampledIndices
  split
  · exact List.nodup_range _
  · split
    · simp
    · exact dedupFirst_nodup _

theorem getSampledIndices_ne_nil (size cap : Nat) (hsz : 0 < size) :
    getSampledIndices size cap ≠ [] := by
  unfold getSampledIndices
  split
  · simp [List.range_eq_nil]
    omega
  · split
    · simp
    · intro h
      have h0 : (0 : Nat) ∈ dedupFirst ((List.range cap).map
          (fun i => jsRound (i * (size - 1)) (cap - 1))) := by
        refine mem_dedupFirst.mpr (List.mem_map.mpr ⟨0, List.mem_range.mpr ?_, jsRound_zero_mul _ _⟩)
        omega
      rw [h] at h0
      exact absurd h0 (List.not_mem_nil 0)

/-- C4, main downsampling case: for `size > cap ≥ 2` the result is
strictly ascending, within `[0, size)`, anchored at both endpoints, and
of length at most `cap`. -/
theorem getSampledIndices_downsample (size cap : Nat) (hcap : 2 ≤ cap)
    (hlt : cap < size) :
    List.Sorted (· < ·) (getSampledIndices size cap) ∧
    (∀ a ∈ getSampledIndices size cap, a < size) ∧
    0 ∈ getSampledIndices size cap ∧
    size - 1 ∈ getSampledIndices size cap ∧
    (getSampledIndices size cap).length ≤ cap := by
  have heq : getSampledIndices size cap =
      dedupFirst ((List.range cap).map (fun i => jsRound (i * (size - 1)) (cap - 1))) := by
    rw [getSampledIndices, if_neg (by omega), if_neg (by omega)]
  set f : Nat → Nat := fun i => jsRound (i * (size - 1)) (cap - 1) with hf
  have hmono : ∀ {a b : Nat}, a ≤ b → f a ≤ f b := fun h =>
    jsRound_mono _ (Nat.mul_le_mul_right _ h)
  have hsortedM : List.Sorted (· ≤ ·) ((List.range cap).map f) := by
    rw [List.Sorted, List.pairwise_map]
    exact (List.sorted_lt_range cap).imp (fun h => hmono (Nat.le_of_lt h))
  have hsorted : List.Sorted (· < ·) (getSampledIndices size cap) := by
    rw [heq]
    exact List.Sorted.lt_of_le
      (List.Pairwise.sublist (dedupFirst_sublist _) hsortedM) (dedupFirst_nodup _)
  have hlast : f (cap - 1) = size - 1 := by
    show jsRound ((cap - 1) * (size - 1)) (cap - 1) = size - 1
    rw [Nat.mul_comm]
    exact jsRound_mul _ _ (by omega)
  refine ⟨hsorted, ?_, ?_, ?_, ?_⟩
  · intro a ha
    rw [heq] at ha
    obtain ⟨i, hi, rfl⟩ := List.mem_map.mp (mem_dedupFirst.mp ha)
    have hicap : i < cap := List.mem_range.mp hi
    have hle : f i ≤ f (cap - 1) := hmono (by omega)
    rw [hlast] at hle
    omega
  · rw [heq]
    refine mem_dedupFirst.mpr (List.mem_map.mpr ⟨0, List.mem_range.mpr (by omega), ?_⟩)
    exact jsRound_zero_mul _ _
  · rw [heq]
    exact mem_dedupFirst.mpr (List.mem_map.mpr ⟨cap - 1, List.mem_range.mpr (by omega), hlast⟩)
  · rw [heq]
    calc (dedupFirst ((List.range cap).map f)).length
        ≤ ((List.range cap).map f).length := (dedupFirst_sublist _).length_le
      _ = cap := by simp

/-- C4: the downsampler returns a strictly ascending set of distinct
indices in `[0, size)` containing both endpoints with length at most
`cap` when `size > cap ≥ 2`; the full range when `size ≤ cap`; `[0]`
when `cap < 2`; and matches the three concrete examples. -/
theorem downsampler_spec (size cap : Nat) (hsz : 0 < size) :
    (2 ≤ cap → cap < size →
      List.Sorted (· < ·) (getSampledIndices size cap) ∧
      (∀ a ∈ getSampledIndices size cap, a < size) ∧
      0 ∈ getSampledIndices size cap ∧
      size - 1 ∈ getSampledIndices size cap ∧
      (getSampledIndices size cap).length ≤ cap) ∧
    (size ≤ cap → getSampledIndices size cap = List.range size) ∧
    (cap < 2 → getSampledIndices size cap = [0]) ∧
    getSampledIndices 10 4 = [0, 3, 6, 9] ∧
    getSampledIndices 100 5 = [0, 25, 50, 74, 99] ∧
    getSampledIndices 5 8 = [0, 1, 2, 3, 4] := by
  refine ⟨fun hcap hlt => getSampledIndices_downsample size cap hcap hlt, ?_, ?_, ?_, ?_, ?_⟩
  · intro h
    rw [getSampledIndices, if_pos h]
  · intro h
    by_cases hle : size ≤ cap
    · have hs1 : size = 1 := by omega
      rw [getSampledIndices, if_pos hle, hs1]
      rfl
    · rw [getSampledIndices, if_neg hle, if_pos h]
  · decide
  · decide
  · decide

theorem downsampler_spec_witness :
    List.Sorted (· < ·) (getSampledIndices 10 4) ∧
    0 ∈ getSampledIndices 10 4 ∧ 9 ∈ getSampledIndices 10 4 := by
  have h := (downsampler_spec 10 4 (by decide)).1 (by decide) (by decide)
  exact ⟨h.1, h.2.2.1, h.2.2.2.1⟩

/-! ### Characterization of the value lookup -/

theorem walk_num_iff (p : List Nat) :
    ∀ (v : JsVal) (q : ℚ), walk v p = some (JsVal.num q) ↔ NumAt v p q := by
  induction p with
  | nil =>
      intro v q
      constructor
      · intro h
        rw [walk] at h
        cases h
        exact NumAt.here q
      · intro h
        cases h
        rfl
  | cons idx rest ih =>
      intro v q
      cases v with
      | num q' =>
          constructor
          · intro h
            simp [walk] at h
          · intro h
            cases h
      | other =>
          constructor
          · intro h
            simp [walk] at h
          · intro h
            cases h
      | arr xs =>
          rw [walk]
          by_cases h : idx < xs.length
          · rw [dif_pos h, ih]
            constructor
            · intro hn
              exact NumAt.step h hn
            · intro hn
              cases hn with
              | step h' hn' => exact hn'
          · rw [dif_neg h]
            constructor
            · intro hc
              cases hc
            · intro hn
              cases hn with
              | step h' _ => exact absurd h' h

/-- C9: `getValue` returns a number exactly when the data is an array
and the walk lands on that number; otherwise it returns `none`.
Concretely, `[[1,2],[3,4]]` at `[1,0]` gives `3` and at `[5,0]` gives
`none`. -/
theorem getValue_characterization :
    (∀ (data : Option JsVal) (path : List Nat) (q : ℚ),
      getValue data path = some q ↔
        ∃ xs : List JsVal, data = some (JsVal.arr xs) ∧ NumAt (JsVal.arr xs) path q) ∧
    getValue (some demoData) [1, 0] = some 3 ∧
    getValue (some demoData) [5, 0] = none := by
  refine ⟨?_, rfl, rfl⟩
  intro data path q
  match data with
  | none => simp [getValue]
  | some (JsVal.num q') =>
      simp only [getValue]
      constructor
      · intro h
        cases h
      · rintro ⟨xs, hxs, -⟩
        cases hxs
  | some JsVal.other =>
      simp only [getValue]
      constructor
      · intro h
        cases h
      · rintro ⟨xs, hxs, -⟩
        cases hxs
  | some (JsVal.arr xs) =>
      simp only [getValue]
      constructor
      · intro h
        refine ⟨xs, rfl, ?_⟩
        rw [← walk_num_iff]
        rcases hw : walk (JsVal.arr xs) path with - | v
        · rw [hw] at h
          cases h
        · rw [hw] at h
          cases v with
          | num q' =>
              cases h
              rfl
          | arr ys => cases h
          | other => cases h
      · rintro ⟨xs', hxs', hn⟩
        cases hxs'
        rw [← walk_num_iff] at hn
        rw [hn]

/-! ### The Cartesian product of the sampled index sets -/

theorem mem_cartesianProd : ∀ {L : List (List Nat)} {p : List Nat},
    p ∈ cartesianProd L ↔ List.Forall₂ (fun x l => x ∈ l) p L := by
  intro L
  induction L with
  | nil =>
      intro p
      simp [cartesianProd, List.forall₂_nil_right_iff]
  | cons l rest ih =>
      intro p
      simp only [cartesianProd, List.mem_flatMap, List.mem_map,
        List.forall₂_cons_right_iff]
      constructor
      · rintro ⟨v, hv, p', hp', rfl⟩
        exact ⟨v, p', hv, ih.mp hp', rfl⟩
      · rintro ⟨v, p', hv, hp', rfl⟩
        exact ⟨v, hv, p', ih.mpr hp', rfl⟩

theorem cartesianProd_length_eq (L : List (List Nat)) :
    (cartesianProd L).length = (L.map List.length).prod := by
  induction L with
  | nil => rfl
  | cons l rest ih =>
      simp only [cartesianProd, List.length_flatMap, List.map_map, List.map_cons,
        List.prod_cons]
      have hconst : (l.map (Function.comp List.length
          (fun v => (cartesianProd rest).map (fun p => v :: p)))) =
          l.map (fun _ => (cartesianProd rest).length) := by
        apply List.map_congr_left
        intro v _
        simp
      rw [hconst, List.map_const', List.sum_replicate, smul_eq_mul, ih]

theorem length_of_mem_cartesianProd {L : List (List Nat)} {p : List Nat}
    (h : p ∈ cartesianProd L) : p.length = L.length :=
  (mem_cartesianProd.mp h).length_eq

theorem getD_mem_of_mem_cartesianProd {L : List (List Nat)} {p : List Nat}
    (h : p ∈ cartesianProd L) {d : Nat} (hd : d < L.length) :
    p.getD d 0 ∈ L.getD d [] := by
  have hf := mem_cartesianProd.mp h
  have hlen : p.length = L.length := hf.length_eq
  have hdp : d < p.length := by omega
  have := hf.get hdp hd
  rwa [List.getD_eq_getElem _ _ hdp, List.getD_eq_getElem _ _ hd]

theorem cartesianProd_nodup {L : List (List Nat)}
    (h : ∀ l ∈ L, l.Nodup) : (cartesianProd L).Nodup := by
  induction L with
  | nil => simp [cartesianProd]
  | cons l rest ih =>
      rw [cartesianProd, List.nodup_flatMap]
      refine ⟨?_, ?_⟩
      · intro v _
        exact (ih (fun l' hl' => h l' (List.mem_cons_of_mem _ hl'))).map
          (fun a b hab => by simpa using hab)
      · have hl : l.Nodup := h l (List.mem_cons_self _ _)
        refine hl.imp ?_
        intro a b hab
        rw [Function.onFun, List.disjoint_left]
        rintro p hp hq
        obtain ⟨p₁, -, rfl⟩ := List.mem_map.mp hp
        obtain ⟨p₂, -, heq⟩ := List.mem_map.mp hq
        exact hab (List.cons.injEq .. ▸ heq).1.symm

/-! ### Basic structure of `dimIndices` and `centerPositions` -/

theorem dimIndices_length (cfg : LayoutConfig) :
    (dimIndices cfg).length = cfg.shape.length := by
  simp [dimIndices]

theorem dimIndices_getD (cfg : LayoutConfig) {d : Nat} (hd : d < cfg.shape.length) :
    (dimIndices cfg).getD d [] =
      (if d ∈ activePageDims cfg then
        [clampIndex ((lookupSlice cfg.sliceIndices d).getD 0) (cfg.shape.getD d 0)]
      else
        getSampledIndices (cfg.shape.getD d 0) cfg.maxCellsPerDim) := by
  unfold dimIndices
  have hd2 : d < (cfg.shape.mapIdx (fun d size =>
      if d ∈ activePageDims cfg then
        [clampIndex ((lookupSlice cfg.sliceIndices d).getD 0) size]
      else getSampledIndices size cfg.maxCellsPerDim)).length := by
    simpa using hd
  rw [List.getD_eq_getElem _ _ hd2, List.getD_eq_getElem _ _ hd]
  exact List.get_mapIdx cfg.shape _ d hd

theorem dimIndices_entry_nodup (cfg : LayoutConfig) {d : Nat}
    (hd : d < cfg.shape.length) : ((dimIndices cfg).getD d []).Nodup := by
  rw [dimIndices_getD cfg hd]
  split
  · simp
  · exact getSampledIndices_nodup _ _

theorem dimIndices_entry_ne_nil (cfg : LayoutConfig)
    (hpos : ∀ s ∈ cfg.shape, 0 < s) {d : Nat} (hd : d < cfg.shape.length) :
    (dimIndices cfg).getD d [] ≠ [] := by
  rw [dimIndices_getD cfg hd]
  split
  · simp
  · refine getSampledIndices_ne_nil _ _ (hpos _ ?_)
    have := List.getD_eq_getElem cfg.shape 0 hd
    rw [this]
    exact List.getElem_mem hd

theorem dimIndices_nodup_all (cfg : LayoutConfig) :
    ∀ l ∈ dimIndices cfg, l.Nodup := by
  intro l hl
  obtain ⟨i, hi, rfl⟩ := List.getElem_of_mem hl
  have hi' : i < cfg.shape.length := by
    rw [← dimIndices_length cfg]
    exact hi
  have := dimIndices_entry_nodup cfg hi'
  rwa [List.getD_eq_getElem _ _ hi] at this

theorem centerPositions_eq_map {l : List BoxInstance} (h : l ≠ []) :
    centerPositions l = l.map (fun inst =>
      { inst with position :=
          (inst.position.1 - centerX l,
           inst.position.2.1 - centerY l,
           inst.position.2.2 - centerZ l) }) := by
  cases l with
  | nil => exact absurd rfl h
  | cons a as => rfl

theorem centerPositions_map_indexPath (l : List BoxInstance) :
    (centerPositions l).map (fun i => i.indexPath) = l.map (fun i => i.indexPath) := by
  cases l with
  | nil => rfl
  | cons a as =>
      rw [centerPositions_eq_map (by simp), List.map_map]
      rfl

theorem centerPositions_length (l : List BoxInstance) :
    (centerPositions l).length = l.length := by
  cases l with
  | nil => rfl
  | cons a as =>
      rw [centerPositions_eq_map (by simp), List.length_map]

theorem computeLayout_eq (cfg : LayoutConfig) (h : cfg.shape ≠ []) :
    computeLayout cfg =
      centerPositions ((cartesianProd (dimIndices cfg)).map (mkInstance cfg)) := by
  rw [computeLayout, if_neg h]

theorem computeLayout_map_indexPath (cfg : LayoutConfig) (h : cfg.shape ≠ []) :
    (computeLayout cfg).map (fun i => i.indexPath) = cartesianProd (dimIndices cfg) := by
  rw [computeLayout_eq cfg h, centerPositions_map_indexPath, List.map_map]
  have : ((fun i => i.indexPath) ∘ mkInstance cfg) = id := by
    funext p
    rfl
  rw [this, List.map_id]

/-! ### C1: one instance per member of the Cartesian product -/

/-- C1: for a valid configuration with a non-empty shape, the emitted
index paths are exactly the Cartesian product of the per-dimension
sampled index sets (every path a member, every member exactly once),
and the output length is the product of the sampled-set sizes. -/
theorem layout_cartesian_product (cfg : LayoutConfig)
    (hval : ValidConfig cfg) (hne : cfg.shape ≠ []) :
    (computeLayout cfg).map (fun i => i.indexPath) = cartesianProd (dimIndices cfg) ∧
    (computeLayout cfg).length = ((dimIndices cfg).map List.length).prod ∧
    ((computeLayout cfg).map (fun i => i.indexPath)).Nodup := by
  have hmap := computeLayout_map_indexPath cfg hne
  refine ⟨hmap, ?_, ?_⟩
  · have hlen := congrArg List.length hmap
    rw [List.length_map] at hlen
    rw [hlen, cartesianProd_length_eq]
  · rw [hmap]
    exact cartesianProd_nodup (dimIndices_nodup_all cfg)

theorem layout_cartesian_product_witness :
    (computeLayout cfg444).length = 64 := by
  have h := (layout_cartesian_product cfg444 (by decide) (by decide)).2.1
  rw [h]
  decide

/-! ### C2: tiling mode collapses no dimension -/

theorem mapIdx_const_index {α β : Type} (g : α → β) (l : List α) :
    l.mapIdx (fun _ a => g a) = l.map g := by
  apply List.ext_getElem
  · simp
  · intro i h1 h2
    have hi : i < l.length := by simpa using h2
    rw [List.getElem_map]
    exact List.get_mapIdx l (fun _ a => g a) i hi

theorem dimIndices_tiling (cfg : LayoutConfig) (hmode : cfg.mode = Mode.tiling) :
    dimIndices cfg =
      cfg.shape.map (fun size => getSampledIndices size cfg.maxCellsPerDim) := by
  have hpage : activePageDims cfg = [] := by
    rw [activePageDims, hmode]
  unfold dimIndices
  rw [hpage]
  simp only [List.not_mem_nil, if_false]
  exact mapIdx_const_index _ _

/-- C2: in tiling mode no dimension is collapsed to a forced page
index — every dimension keeps its full sampled index set — and the
output length is the product of the sampled-set sizes of all
dimensions. -/
theorem tiling_no_page_collapse (cfg : LayoutConfig)
    (hmode : cfg.mode = Mode.tiling) (hne : cfg.shape ≠ []) :
    dimIndices cfg =
      cfg.shape.map (fun size => getSampledIndices size cfg.maxCellsPerDim) ∧
    (computeLayout cfg).length =
      (cfg.shape.map
        (fun size => (getSampledIndices size cfg.maxCellsPerDim).length)).prod := by
  have hD := dimIndices_tiling cfg hmode
  refine ⟨hD, ?_⟩
  rw [computeLayout_eq cfg hne, centerPositions_length, List.length_map,
    cartesianProd_length_eq, hD, List.map_map]
  rfl

theorem tiling_no_page_collapse_witness :
    (computeLayout cfgTiling).length = 120 := by
  have h := (tiling_no_page_collapse cfgTiling rfl (by decide)).2
  rw [h]
  decide

/-! ### C3: slicing mode forces one clamped index per outer dimension -/

/-- C3: in slicing mode every outer dimension's sampled set is the
single clamped slice index (default 0, out-of-range values clamped into
`[0, size-1]`), and every emitted instance carries that forced index at
that dimension. -/
theorem slicing_forces_single_index (cfg : LayoutConfig)
    (hmode : cfg.mode = Mode.slicing) (d : Nat) (hd : d ∈ cfg.outerDims)
    (hdlt : d < cfg.shape.length) :
    (dimIndices cfg).getD d [] =
      [clampIndex ((lookupSlice cfg.sliceIndices d).getD 0) (cfg.shape.getD d 0)] ∧
    ∀ inst ∈ computeLayout cfg,
      inst.indexPath.getD d 0 =
        clampIndex ((lookupSlice cfg.sliceIndices d).getD 0) (cfg.shape.getD d 0) := by
  have hpage : d ∈ activePageDims cfg := by
    rw [activePageDims, hmode]
    exact hd
  have hDd := dimIndices_getD cfg hdlt
  rw [if_pos hpage] at hDd
  refine ⟨hDd, ?_⟩
  intro inst hinst
  have hne : cfg.shape ≠ [] := by
    intro h
    rw [h] at hdlt
    simp at hdlt
  have hmap := computeLayout_map_indexPath cfg hne
  have hpmem : inst.indexPath ∈ cartesianProd (dimIndices cfg) := by
    rw [← hmap]
    exact List.mem_map_of_mem _ hinst
  have hdD : d < (dimIndices cfg).length := by
    rw [dimIndices_length]
    exact hdlt
  have hmem := getD_mem_of_mem_cartesianProd hpmem hdD
  rw [hDd] at hmem
  simpa using hmem

theorem slicing_forces_single_index_witness :
    (∀ inst ∈ computeLayout cfgSlicing, inst.indexPath.getD 0 0 = 1) ∧
    (computeLayout cfgSlicing).length = 60 := by
  constructor
  · intro inst hinst
    have h := (slicing_forces_single_index cfgSlicing rfl 0 (by decide) (by decide)).2
      inst hinst
    simpa using h
  · decide

/-! ### C10: tiling mode never consults `sliceIndices` -/

/-- C10: in tiling mode the output is independent of `sliceIndices` —
replacing the whole mapping changes nothing. -/
theorem tiling_ignores_sliceIndices (cfg : LayoutConfig) (si : List (Nat × Int))
    (hmode : cfg.mode = Mode.tiling) :
    computeLayout { cfg with sliceIndices := si } = computeLayout cfg := by
  obtain ⟨sh, sp, od, m, si0, cap, dt⟩ := cfg
  simp only at hmode
  subst hmode
  have hD : dimIndices { shape := sh, spatialDims := sp, outerDims := od,
                         mode := Mode.tiling, sliceIndices := si,
                         maxCellsPerDim := cap, data := dt } =
      dimIndices { shape := sh, spatialDims := sp, outerDims := od,
                   mode := Mode.tiling, sliceIndices := si0,
                   maxCellsPerDim := cap, data := dt } := by
    rw [dimIndices_tiling _ rfl, dimIndices_tiling _ rfl]
  have hmk : mkInstance { shape := sh, spatialDims := sp, outerDims := od,
                          mode := Mode.tiling, sliceIndices := si,
                          maxCellsPerDim := cap, data := dt } =
      mkInstance { shape := sh, spatialDims := sp, outerDims := od,
                   mode := Mode.tiling, sliceIndices := si0,
                   maxCellsPerDim := cap, data := dt } := by
    funext p
    simp only [mkInstance, rawPosition, tileSteps, stepYBase, stepXBase, stepZBase,
      blockSize, hD]
    rfl
  show computeLayout _ = computeLayout _
  unfold computeLayout
  rw [hD, hmk]

theorem tiling_ignores_sliceIndices_witness :
    computeLayout { cfgTiling with sliceIndices := [(0, 5)] } = computeLayout cfgTiling :=
  tiling_ignores_sliceIndices cfgTiling [(0, 5)] rfl

/-! ### C6: the position formula -/

/-- C6: there are per-axis centering constants such that every emitted
position is `(rankX + accX - cx, -rankY - accY - cy, -rankZ - accZ - cz)`:
the rank-within-sample of the spatial dimensions plus the accumulated
tile offsets, with Y and Z sign-inverted. -/
theorem position_formula (cfg : LayoutConfig) :
    ∃ cx cy cz : ℚ, ∀ inst ∈ computeLayout cfg,
      inst.position.1 =
        ((spatialRank (dimIndices cfg) cfg.spatialDims.1 inst.indexPath +
          (tileAdds (dimIndices cfg) (tileSteps cfg) (activeTileDims cfg)
            inst.indexPath).1 : ℤ) : ℚ) - cx ∧
      inst.position.2.1 =
        ((-spatialRank (dimIndices cfg) cfg.spatialDims.2.1 inst.indexPath -
          (tileAdds (dimIndices cfg) (tileSteps cfg) (activeTileDims cfg)
            inst.indexPath).2.1 : ℤ) : ℚ) - cy ∧
      inst.position.2.2 =
        ((-spatialRank (dimIndices cfg) cfg.spatialDims.2.2 inst.indexPath -
          (tileAdds (dimIndices cfg) (tileSteps cfg) (activeTileDims cfg)
            inst.indexPath).2.2 : ℤ) : ℚ) - cz := by
  by_cases hsh : cfg.shape = []
  · refine ⟨0, 0, 0, ?_⟩
    intro inst hinst
    rw [computeLayout, if_pos hsh] at hinst
    exact absurd hinst (List.not_mem_nil inst)
  · set l := (cartesianProd (dimIndices cfg)).map (mkInstance cfg) with hl
    refine ⟨centerX l, centerY l, centerZ l, ?_⟩
    intro inst hinst
    rw [computeLayout_eq cfg hsh, ← hl] at hinst
    rcases hl0 : l with - | ⟨a, as⟩
    · rw [hl0] at hinst
      exact absurd hinst (List.not_mem_nil inst)
    · rw [← hl0]
      rw [centerPositions_eq_map (by rw [hl0]; exact List.cons_ne_nil a as)] at hinst
      obtain ⟨inst', hmem', rfl⟩ := List.mem_map.mp hinst
      rw [hl] at hmem'
      obtain ⟨p, hp, rfl⟩ := List.mem_map.mp hmem'
      exact ⟨rfl, rfl, rfl⟩

/-! ### C7: centering puts the bounding-box midpoint at the origin -/

theorem foldl_min_map_sub (c : ℚ) :
    ∀ (l : List ℚ) (a : ℚ),
      (l.map (fun x => x - c)).foldl min (a - c) = l.foldl min a - c := by
  intro l
  induction l with
  | nil => intro a; rfl
  | cons x xs ih =>
      intro a
      simp only [List.map_cons, List.foldl_cons]
      rw [min_sub_sub_right, ih]

theorem foldl_max_map_sub (c : ℚ) :
    ∀ (l : List ℚ) (a : ℚ),
      (l.map (fun x => x - c)).foldl max (a - c) = l.foldl max a - c := by
  intro l
  induction l with
  | nil => intro a; rfl
  | cons x xs ih =>
      intro a
      simp only [List.map_cons, List.foldl_cons]
      rw [max_sub_sub_right, ih]

theorem listMin_map_sub (c : ℚ) {l : List ℚ} (h : l ≠ []) :
    listMin (l.map (fun x => x - c)) = listMin l - c := by
  cases l with
  | nil => exact absurd rfl h
  | cons x xs =>
      simp only [List.map_cons, listMin]
      exact foldl_min_map_sub c xs x

theorem listMax_map_sub (c : ℚ) {l : List ℚ} (h : l ≠ []) :
    listMax (l.map (fun x => x - c)) = listMax l - c := by
  cases l with
  | nil => exact absurd rfl h
  | cons x xs =>
      simp only [List.map_cons, listMax]
      exact foldl_max_map_sub c xs x

theorem centerPositions_map_pos1 (l : List BoxInstance) (h : l ≠ []) :
    (centerPositions l).map (fun i => i.position.1) =
      (l.map (fun i => i.position.1)).map (fun x => x - centerX l) := by
  rw [centerPositions_eq_map h, List.map_map, List.map_map]
  rfl

theorem centerPositions_map_pos2 (l : List BoxInstance) (h : l ≠ []) :
    (centerPositions l).map (fun i => i.position.2.1) =
      (l.map (fun i => i.position.2.1)).map (fun x => x - centerY l) := by
  rw [centerPositions_eq_map h, List.map_map, List.map_map]
  rfl

theorem centerPositions_map_pos3 (l : List BoxInstance) (h : l ≠ []) :
    (centerPositions l).map (fun i => i.position.2.2) =
      (l.map (fun i => i.position.2.2)).map (fun x => x - centerZ l) := by
  rw [centerPositions_eq_map h, List.map_map, List.map_map]
  rfl

/-- C7: for a non-empty output, on each coordinate axis the midpoint of
the minimum and maximum emitted coordinates is exactly 0. -/
theorem centering_midpoint_zero (cfg : LayoutConfig)
    (hne : computeLayout cfg ≠ []) :
    (listMin ((computeLayout cfg).map (fun i => i.position.1)) +
      listMax ((computeLayout cfg).map (fun i => i.position.1))) / 2 = 0 ∧
    (listMin ((computeLayout cfg).map (fun i => i.position.2.1)) +
      listMax ((computeLayout cfg).map (fun i => i.position.2.1))) / 2 = 0 ∧
    (listMin ((computeLayout cfg).map (fun i => i.position.2.2)) +
      listMax ((computeLayout cfg).map (fun i => i.position.2.2))) / 2 = 0 := by
  have hsh : cfg.shape ≠ [] := by
    intro h
    exact hne (by rw [computeLayout, if_pos h])
  have hCL := computeLayout_eq cfg hsh
  set l := (cartesianProd (dimIndices cfg)).map (mkInstance cfg) with hl
  have hlne : l ≠ [] := by
    intro h0
    apply hne
    rw [hCL, h0]
    rfl
  have hm1 : l.map (fun i => i.position.1) ≠ [] := by
    simpa using hlne
  have hm2 : l.map (fun i => i.position.2.1) ≠ [] := by
    simpa using hlne
  have hm3 : l.map (fun i => i.position.2.2) ≠ [] := by
    simpa using hlne
  refine ⟨?_, ?_, ?_⟩
  · rw [hCL, centerPositions_map_pos1 l hlne, listMin_map_sub _ hm1,
      listMax_map_sub _ hm1]
    unfold centerX
    ring
  · rw [hCL, centerPositions_map_pos2 l hlne, listMin_map_sub _ hm2,
      listMax_map_sub _ hm2]
    unfold centerY
    ring
  · rw [hCL, centerPositions_map_pos3 l hlne, listMin_map_sub _ hm3,
      listMax_map_sub _ hm3]
    unfold centerZ
    ring

theorem centering_midpoint_zero_witness :
    (listMin ((computeLayout cfgLine).map (fun i => i.position.1)) +
      listMax ((computeLayout cfgLine).map (fun i => i.position.1))) / 2 = 0 :=
  (centering_midpoint_zero cfgLine (by decide)).1

/-! ### C8: comma-joined index paths are pairwise distinct ids -/

theorem digitChar_ne_comma {m : Nat} (h : m < 10) : Nat.digitChar m ≠ ',' := by
  have hball : ∀ k, k < 10 → Nat.digitChar k ≠ ',' := by decide
  exact hball m h

theorem natChars_no_comma : ∀ (n : Nat), ∀ c ∈ natChars n, c ≠ ',' := by
  intro n
  induction n using Nat.strong_induction_on with
  | _ n ih =>
      by_cases h : n < 10
      · rw [natChars, if_pos h]
        intro c hc
        rw [List.mem_singleton] at hc
        subst hc
        exact digitChar_ne_comma h
      · rw [natChars, if_neg h]
        intro c hc
        rcases List.mem_append.mp hc with h1 | h2
        · exact ih (n / 10) (Nat.div_lt_self (by omega) (by omega)) c h1
        · rw [List.mem_singleton] at h2
          subst h2
          exact digitChar_ne_comma (Nat.mod_lt _ (by omega))

theorem charVal_digitChar {m : Nat} (h : m < 10) : charVal (Nat.digitChar m) = m := by
  have hball : ∀ k, k < 10 → charVal (Nat.digitChar k) = k := by decide
  exact hball m h

theorem decodeDigits_append (l : List Char) (c : Char) :
    decodeDigits (l ++ [c]) = decodeDigits l * 10 + charVal c := by
  unfold decodeDigits
  rw [List.foldl_append]
  rfl

theorem decodeDigits_natChars : ∀ n : Nat, decodeDigits (natChars n) = n := by
  intro n
  induction n using Nat.strong_induction_on with
  | _ n ih =>
      by_cases h : n < 10
      · rw [natChars, if_pos h]
        show decodeDigits [Nat.digitChar n] = n
        unfold decodeDigits
        simp [charVal_digitChar h]
      · rw [natChars, if_neg h, decodeDigits_append,
          ih (n / 10) (Nat.div_lt_self (by omega) (by omega)),
          charVal_digitChar (Nat.mod_lt _ (by omega))]
        omega

theorem natChars_injective {a b : Nat} (h : natChars a = natChars b) : a = b := by
  have hd := congrArg decodeDigits h
  rwa [decodeDigits_natChars, decodeDigits_natChars] at hd

theorem natChars_ne_nil (n : Nat) : natChars n ≠ [] := by
  by_cases h : n < 10
  · rw [natChars, if_pos h]
    simp
  · rw [natChars, if_neg h]
    simp

theorem comma_split_unique :
    ∀ (t1 t2 r1 r2 : List Char),
      (∀ c ∈ t1, c ≠ ',') → (∀ c ∈ t2, c ≠ ',') →
      t1 ++ ',' :: r1 = t2 ++ ',' :: r2 → t1 = t2 ∧ r1 = r2 := by
  intro t1
  induction t1 with
  | nil =>
      intro t2 r1 r2 _ h2 heq
      cases t2 with
      | nil =>
          simp only [List.nil_append, List.cons.injEq] at heq
          exact ⟨rfl, heq.2⟩
      | cons c t2' =>
          simp only [List.nil_append, List.cons_append, List.cons.injEq] at heq
          exact absurd heq.1.symm (h2 c (List.mem_cons_self c t2'))
  | cons c1 t1' ih =>
      intro t2 r1 r2 h1 h2 heq
      cases t2 with
      | nil =>
          simp only [List.nil_append, List.cons_append, List.cons.injEq] at heq
          exact absurd heq.1 (h1 c1 (List.mem_cons_self _ _))
      | cons c2 t2' =>
          simp only [List.cons_append, List.cons.injEq] at heq
          obtain ⟨hc, htail⟩ := heq
          obtain ⟨ht, hr⟩ := ih t2' r1 r2
            (fun c hc' => h1 c (List.mem_cons_of_mem _ hc'))
            (fun c hc' => h2 c (List.mem_cons_of_mem _ hc')) htail
          exact ⟨by rw [hc, ht], hr⟩

theorem encodePath_nil : encodePath [] = [] := rfl

theorem encodePath_single (n : Nat) : encodePath [n] = natChars n := rfl

theorem encodePath_cons (n m : Nat) (rest : List Nat) :
    encodePath (n :: m :: rest) = natChars n ++ ',' :: encodePath (m :: rest) := rfl

theorem encodePath_injective : ∀ (p q : List Nat), encodePath p = encodePath q → p = q := by
  intro p
  induction p with
  | nil =>
      intro q h
      cases q with
      | nil => rfl
      | cons m q' =>
          cases q' with
          | nil =>
              rw [encodePath_nil, encodePath_single] at h
              exact absurd h.symm (natChars_ne_nil m)
          | cons k q'' =>
              rw [encodePath_nil, encodePath_cons] at h
              exact absurd h.symm (by simp [natChars_ne_nil])
  | cons n p' ih =>
      intro q h
      cases p' with
      | nil =>
          cases q with
          | nil =>
              rw [encodePath_single, encodePath_nil] at h
              exact absurd h (natChars_ne_nil n)
          | cons m q' =>
              cases q' with
              | nil =>
                  rw [encodePath_single, encodePath_single] at h
                  rw [natChars_injective h]
              | cons k q'' =>
                  exfalso
                  rw [encodePath_single, encodePath_cons] at h
                  have hcm : ',' ∈ natChars n := by
                    rw [h]
                    exact List.mem_append.mpr (Or.inr (List.mem_cons_self _ _))
                  exact natChars_no_comma n ',' hcm rfl
      | cons j p'' =>
          cases q with
          | nil =>
              rw [encodePath_cons, encodePath_nil] at h
              exact absurd h (by simp [natChars_ne_nil])
          | cons m q' =>
              cases q' with
              | nil =>
                  exfalso
                  rw [encodePath_cons, encodePath_single] at h
                  have hcm : ',' ∈ natChars m := by
                    rw [← h]
                    exact List.mem_append.mpr (Or.inr (List.mem_cons_self _ _))
                  exact natChars_no_comma m ',' hcm rfl
              | cons k q'' =>
                  rw [encodePath_cons, encodePath_cons] at h
                  obtain ⟨h1, h2⟩ := comma_split_unique _ _ _ _
                    (fun c hc => natChars_no_comma n c hc)
                    (fun c hc => natChars_no_comma m c hc) h
                  rw [natChars_injective h1, ih (k :: q'') h2]

theorem pathId_injective : Function.Injective pathId := by
  intro p q h
  unfold pathId at h
  injection h with h'
  exact encodePath_injective p q h'

theorem centerPositions_map_ids (l : List BoxInstance) :
    (centerPositions l).map (fun i => i.id) = l.map (fun i => i.id) := by
  cases l with
  | nil => rfl
  | cons a as =>
      rw [centerPositions_eq_map (by simp), List.map_map]
      rfl

/-- C8: for every configuration, the `id` strings of all emitted
instances are pairwise distinct — the comma-joined index path is
injective on the emitted index paths. -/
theorem ids_pairwise_distinct (cfg : LayoutConfig) :
    ((computeLayout cfg).map (fun i => i.id)).Nodup := by
  by_cases hsh : cfg.shape = []
  · rw [computeLayout, if_pos hsh]
    simp
  · rw [computeLayout_eq cfg hsh, centerPositions_map_ids, List.map_map]
    have hcomp : ((fun i : BoxInstance => i.id) ∘ mkInstance cfg) = pathId := by
      funext p
      rfl
    rw [hcomp]
    exact (cartesianProd_nodup (dimIndices_nodup_all cfg)).map pathId_injective

/-! ### C5: distinct instances never overlap -/

theorem jsIndexOf_of_mem {l : List Nat} {x : Nat} (h : x ∈ l) :
    jsIndexOf l x = (l.indexOf x : Int) := by
  unfold jsIndexOf
  rw [if_pos h]

theorem spatialRank_eq_cast {D : List (List Nat)} {slot : Option Nat} {p : List Nat}
    (h : ∀ d, slot = some d → p.getD d 0 ∈ D.getD d []) :
    spatialRank D slot p = (spatialRankNat D slot p : Int) := by
  cases slot with
  | none => rfl
  | some d =>
      show jsIndexOf (D.getD d []) (p.getD d 0) = _
      rw [jsIndexOf_of_mem (h d rfl)]
      rfl

theorem stepsOn_cons_same (D : List (List Nat)) (a : Axis) (d s : Nat)
    (ts : List (Nat × Axis × Nat)) :
    stepsOn D a ((d, a, s) :: ts) =
      (d, (D.getD d []).length, s) :: stepsOn D a ts := by
  simp [stepsOn, List.filter_cons]

theorem stepsOn_cons_other (D : List (List Nat)) {a b : Axis} (h : b ≠ a)
    (d s : Nat) (ts : List (Nat × Axis × Nat)) :
    stepsOn D a ((d, b, s) :: ts) = stepsOn D a ts := by
  simp [stepsOn, List.filter_cons, h]

theorem tileSumN_cons (D : List (List Nat)) (p : List Nat) (e : Nat × Nat × Nat)
    (rest : List (Nat × Nat × Nat)) :
    tileSumN D p (e :: rest) = rankNat D p e.1 * e.2.2 + tileSumN D p rest := by
  simp [tileSumN]

theorem tileStepsAux_keys (D : List (List Nat)) :
    ∀ (dims : List Nat) (i sy sx sz : Nat),
      (tileStepsAux D dims i sy sx sz).map (fun e => e.1) = dims := by
  intro dims
  induction dims with
  | nil => intro i sy sx sz; rfl
  | cons d rest ih =>
      intro i sy sx sz
      simp only [tileStepsAux]
      by_cases h0 : i % 3 = 0
      · rw [if_pos h0, List.map_cons, ih]
      · rw [if_neg h0]
        by_cases h1 : i % 3 = 1
        · rw [if_pos h1, List.map_cons, ih]
        · rw [if_neg h1, List.map_cons, ih]

theorem tileStepsAux_chain (D : List (List Nat)) :
    ∀ (dims : List Nat) (i sy sx sz : Nat),
      StepChain sy (stepsOn D Axis.y (tileStepsAux D dims i sy sx sz)) ∧
      StepChain sx (stepsOn D Axis.x (tileStepsAux D dims i sy sx sz)) ∧
      StepChain sz (stepsOn D Axis.z (tileStepsAux D dims i sy sx sz)) := by
  intro dims
  induction dims with
  | nil => intro i sy sx sz; exact ⟨trivial, trivial, trivial⟩
  | cons d rest ih =>
      intro i sy sx sz
      simp only [tileStepsAux]
      by_cases h0 : i % 3 = 0
      · rw [if_pos h0]
        refine ⟨?_, ?_, ?_⟩
        · rw [stepsOn_cons_same]
          exact ⟨rfl, (ih (i + 1) (sy * (D.getD d []).length + SPACING) sx sz).1⟩
        · rw [stepsOn_cons_other D (by decide)]
          exact (ih (i + 1) (sy * (D.getD d []).length + SPACING) sx sz).2.1
        · rw [stepsOn_cons_other D (by decide)]
          exact (ih (i + 1) (sy * (D.getD d []).length + SPACING) sx sz).2.2
      · rw [if_neg h0]
        by_cases h1 : i % 3 = 1
        · rw [if_pos h1]
          refine ⟨?_, ?_, ?_⟩
          · rw [stepsOn_cons_other D (by decide)]
            exact (ih (i + 1) sy (sx * (D.getD d []).length + SPACING) sz).1
          · rw [stepsOn_cons_same]
            exact ⟨rfl, (ih (i + 1) sy (sx * (D.getD d []).length + SPACING) sz).2.1⟩
          · rw [stepsOn_cons_other D (by decide)]
            exact (ih (i + 1) sy (sx * (D.getD d []).length + SPACING) sz).2.2
        · rw [if_neg h1]
          refine ⟨?_, ?_, ?_⟩
          · rw [stepsOn_cons_other D (by decide)]
            exact (ih (i + 1) sy sx (sz * (D.getD d []).length + SPACING)).1
          · rw [stepsOn_cons_other D (by decide)]
            exact (ih (i + 1) sy sx (sz * (D.getD d []).length + SPACING)).2.1
          · rw [stepsOn_cons_same]
            exact ⟨rfl, (ih (i + 1) sy sx (sz * (D.getD d []).length + SPACING)).2.2⟩

theorem lookupStep_cons_self (e : Nat × Axis × Nat) (ts : List (Nat × Axis × Nat)) :
    lookupStep (e :: ts) e.1 = some e.2 := by
  unfold lookupStep
  rw [List.find?_cons_of_pos _ (by simp)]
  rfl

theorem lookupStep_cons_ne {e : Nat × Axis × Nat} {d : Nat}
    (h : d ≠ e.1) (ts : List (Nat × Axis × Nat)) :
    lookupStep (e :: ts) d = lookupStep ts d := by
  unfold lookupStep
  rw [List.find?_cons_of_neg _ (by simp [Ne.symm h])]

theorem tileAdds_congr (D : List (List Nat)) (p : List Nat) :
    ∀ (dims : List Nat) (ts₁ ts₂ : List (Nat × Axis × Nat)),
      (∀ d ∈ dims, lookupStep ts₁ d = lookupStep ts₂ d) →
      tileAdds D ts₁ dims p = tileAdds D ts₂ dims p := by
  intro dims
  induction dims with
  | nil => intro ts₁ ts₂ _; rfl
  | cons d rest ih =>
      intro ts₁ ts₂ h
      simp only [tileAdds]
      rw [ih ts₁ ts₂ (fun d' hd' => h d' (List.mem_cons_of_mem _ hd')),
        h d (List.mem_cons_self _ _)]

theorem tileAdds_decompose (D : List (List Nat)) (p : List Nat) :
    ∀ (ts : List (Nat × Axis × Nat)),
      ((ts.map (fun e => e.1)).Nodup) →
      (∀ e ∈ ts, p.getD e.1 0 ∈ D.getD e.1 []) →
      tileAdds D ts (ts.map (fun e => e.1)) p =
        ((tileSumN D p (stepsOn D Axis.x ts) : Int),
         (tileSumN D p (stepsOn D Axis.y ts) : Int),
         (tileSumN D p (stepsOn D Axis.z ts) : Int)) := by
  intro ts
  induction ts with
  | nil =>
      intro _ _
      rfl
  | cons e ts' ih =>
      rcases e with ⟨d, a, s⟩
      intro hnd hmem
      have hndc : (d :: ts'.map (fun e => e.1)).Nodup := hnd
      have hnd0 := List.nodup_cons.mp hndc
      have hmem_d : p.getD d 0 ∈ D.getD d [] := hmem (d, a, s) (List.mem_cons_self _ _)
      simp only [List.map_cons, tileAdds]
      have hacc : tileAdds D ((d, a, s) :: ts') (ts'.map (fun e => e.1)) p =
          tileAdds D ts' (ts'.map (fun e => e.1)) p := by
        apply tileAdds_congr
        intro d' hd'
        refine lookupStep_cons_ne ?_ ts'
        intro hda
        rw [show (d, a, s).1 = d from rfl] at hda
        subst hda
        exact hnd0.1 hd'
      rw [hacc, ih hnd0.2 (fun e he => hmem e (List.mem_cons_of_mem _ he)),
        lookupStep_cons_self (d, a, s) ts']
      cases a with
      | x =>
          rw [stepsOn_cons_same, stepsOn_cons_other D (by decide),
            stepsOn_cons_other D (by decide), tileSumN_cons,
            jsIndexOf_of_mem hmem_d]
          show (_, _, _) = (_, _, _)
          refine congrArg₂ Prod.mk ?_ rfl
          push_cast [rankNat]
          ring
      | y =>
          rw [stepsOn_cons_same, stepsOn_cons_other D (by decide),
            stepsOn_cons_other D (by decide), tileSumN_cons,
            jsIndexOf_of_mem hmem_d]
          refine congrArg₂ Prod.mk rfl (congrArg₂ Prod.mk ?_ rfl)
          push_cast [rankNat]
          ring
      | z =>
          rw [stepsOn_cons_same, stepsOn_cons_other D (by decide),
            stepsOn_cons_other D (by decide), tileSumN_cons,
            jsIndexOf_of_mem hmem_d]
          refine congrArg₂ Prod.mk rfl (congrArg₂ Prod.mk rfl ?_)
          push_cast [rankNat]
          ring

theorem evolveStep_ge (c : Nat) (entries : List (Nat × Nat × Nat)) :
    StepChain c entries → 3 ≤ c → (∀ e ∈ entries, 1 ≤ e.2.1) →
    3 ≤ evolveStep c entries := by
  induction entries generalizing c with
  | nil => intro _ h3 _; exact h3
  | cons e rest ih =>
      rcases e with ⟨d, n, s⟩
      intro hchain h3 hcnt
      obtain ⟨hs, hrest⟩ := hchain
      subst hs
      show 3 ≤ evolveStep (s * n + SPACING) rest
      apply ih _ hrest
      · have hn : 1 ≤ n := hcnt (d, n, s) (List.mem_cons_self _ _)
        have hsn : 3 * 1 ≤ s * n := Nat.mul_le_mul h3 hn
        simp only [SPACING]
        omega
      · exact fun e he => hcnt e (List.mem_cons_of_mem _ he)

theorem stepChain_value_le (D : List (List Nat)) (p : List Nat) :
    ∀ (entries : List (Nat × Nat × Nat)) (c r : Nat),
      StepChain c entries → 3 ≤ c → r ≤ c - 3 →
      (∀ e ∈ entries, rankNat D p e.1 < e.2.1) →
      r + tileSumN D p entries ≤ evolveStep c entries - 3 := by
  intro entries
  induction entries with
  | nil =>
      intro c r _ _ hr _
      simpa [tileSumN, evolveStep] using hr
  | cons e rest ih =>
      rcases e with ⟨d, n, s⟩
      intro c r hchain h3 hr hdig
      obtain ⟨hs, hrest⟩ := hchain
      subst hs
      rw [tileSumN_cons]
      show r + (rankNat D p d * s + tileSumN D p rest) ≤
        evolveStep (s * n + SPACING) rest - 3
      have hdn : rankNat D p d < n := hdig (d, n, s) (List.mem_cons_self _ _)
      have h1 : rankNat D p d * s ≤ (n - 1) * s :=
        Nat.mul_le_mul_right s (by omega)
      have h2 : (n - 1) * s = n * s - 1 * s := Nat.sub_mul n 1 s
      have h4 : s ≤ n * s := Nat.le_mul_of_pos_left s (by omega)
      have hsn : s * n = n * s := Nat.mul_comm s n
      have hr' : r + rankNat D p d * s ≤ (s * n + SPACING) - 3 := by
        simp only [SPACING]
        omega
      have h3' : 3 ≤ s * n + SPACING := by
        simp only [SPACING]
        omega
      have := ih (s * n + SPACING) (r + rankNat D p d * s) hrest h3' hr'
        (fun e he => hdig e (List.mem_cons_of_mem _ he))
      omega

theorem stepChain_append_singleton (t : List (Nat × Nat × Nat)) (d n s : Nat) :
    ∀ c : Nat, StepChain c (t ++ [(d, n, s)]) ↔
      StepChain c t ∧ s = evolveStep c t := by
  induction t with
  | nil =>
      intro c
      show (s = c ∧ True) ↔ (True ∧ s = c)
      tauto
  | cons f t' ih =>
      rcases f with ⟨d', n', s'⟩
      intro c
      show (s' = c ∧ StepChain (s' * n' + SPACING) (t' ++ [(d, n, s)])) ↔
        ((s' = c ∧ StepChain (s' * n' + SPACING) t') ∧
          s = evolveStep (s' * n' + SPACING) t')
      rw [ih]
      tauto

theorem tileSumN_append (D : List (List Nat)) (p : List Nat)
    (t₁ t₂ : List (Nat × Nat × Nat)) :
    tileSumN D p (t₁ ++ t₂) = tileSumN D p t₁ + tileSumN D p t₂ := by
  simp [tileSumN]

theorem stepChain_inj (D : List (List Nat)) (p q : List Nat) :
    ∀ (entries : List (Nat × Nat × Nat)) (c r r' : Nat),
      StepChain c entries → 3 ≤ c → r ≤ c - 3 → r' ≤ c - 3 →
      (∀ e ∈ entries, rankNat D p e.1 < e.2.1) →
      (∀ e ∈ entries, rankNat D q e.1 < e.2.1) →
      r + tileSumN D p entries = r' + tileSumN D q entries →
      r = r' ∧ ∀ e ∈ entries, rankNat D p e.1 = rankNat D q e.1 := by
  intro entries
  induction entries using List.reverseRecOn with
  | nil =>
      intro c r r' _ _ _ _ _ _ heq
      simp only [tileSumN, List.map_nil, List.sum_nil, Nat.add_zero] at heq
      exact ⟨heq, fun e he => absurd he (List.not_mem_nil e)⟩
  | append_singleton t e ih =>
      rcases e with ⟨d, n, s⟩
      intro c r r' hchain h3 hr hr' hdp hdq heq
      obtain ⟨hct, hs⟩ := (stepChain_append_singleton t d n s c).mp hchain
      have hdp_t : ∀ e ∈ t, rankNat D p e.1 < e.2.1 :=
        fun e he => hdp e (List.mem_append.mpr (Or.inl he))
      have hdq_t : ∀ e ∈ t, rankNat D q e.1 < e.2.1 :=
        fun e he => hdq e (List.mem_append.mpr (Or.inl he))
      have hcnt_t : ∀ e ∈ t, 1 ≤ e.2.1 := by
        intro e he
        have := hdp_t e he
        omega
      have hlow_p : r + tileSumN D p t ≤ s - 3 := by
        rw [hs]
        exact stepChain_value_le D p t c r hct h3 hr hdp_t
      have hlow_q : r' + tileSumN D q t ≤ s - 3 := by
        rw [hs]
        exact stepChain_value_le D q t c r' hct h3 hr' hdq_t
      have hs3 : 3 ≤ s := by
        rw [hs]
        exact evolveStep_ge c t hct h3 hcnt_t
      have hps : 0 < s := by omega
      rw [tileSumN_append, tileSumN_append] at heq
      have hlast_p : rankNat D p d < n :=
        hdp (d, n, s) (List.mem_append.mpr (Or.inr (List.mem_cons_self _ _)))
      have hlast_q : rankNat D q d < n :=
        hdq (d, n, s) (List.mem_append.mpr (Or.inr (List.mem_cons_self _ _)))
      have heq' : (r + tileSumN D p t) + rankNat D p d * s =
          (r' + tileSumN D q t) + rankNat D q d * s := by
        have hsingle : ∀ pp, tileSumN D pp [(d, n, s)] = rankNat D pp d * s := by
          intro pp
          simp [tileSumN]
        rw [hsingle, hsingle] at heq
        omega
      have hap : r + tileSumN D p t < s := by omega
      have haq : r' + tileSumN D q t < s := by omega
      have hdiv : rankNat D p d = rankNat D q d := by
        have h5 : ((r + tileSumN D p t) + rankNat D p d * s) / s = rankNat D p d := by
          rw [Nat.add_mul_div_right _ _ hps, Nat.div_eq_of_lt hap, Nat.zero_add]
        have h6 : ((r' + tileSumN D q t) + rankNat D q d * s) / s = rankNat D q d := by
          rw [Nat.add_mul_div_right _ _ hps, Nat.div_eq_of_lt haq, Nat.zero_add]
        rw [← h5, ← h6, heq']
      have hmod : r + tileSumN D p t = r' + tileSumN D q t := by
        have h5 : ((r + tileSumN D p t) + rankNat D p d * s) % s = r + tileSumN D p t := by
          rw [Nat.add_mul_mod_self_right, Nat.mod_eq_of_lt hap]
        have h6 : ((r' + tileSumN D q t) + rankNat D q d * s) % s = r' + tileSumN D q t := by
          rw [Nat.add_mul_mod_self_right, Nat.mod_eq_of_lt haq]
        rw [← h5, ← h6, heq']
      obtain ⟨hrr, hdig_t⟩ := ih c r r' hct h3 hr hr' hdp_t hdq_t hmod
      refine ⟨hrr, ?_⟩
      intro e he
      rcases List.mem_append.mp he with h1 | h2
      · exact hdig_t e h1
      · rw [List.mem_singleton] at h2
        subst h2
        exact hdiv

theorem rawPosition_inj (cfg : LayoutConfig) (hval : ValidConfig cfg)
    {p q : List Nat}
    (hp : p ∈ cartesianProd (dimIndices cfg))
    (hq : q ∈ cartesianProd (dimIndices cfg))
    (hraw : rawPosition cfg p = rawPosition cfg q) : p = q := by
  obtain ⟨hpos, hspvalid, hspnodup, hodnodup, houter, hcover⟩ := hval
  have hDlen : (dimIndices cfg).length = cfg.shape.length := dimIndices_length cfg
  have hplen : p.length = cfg.shape.length := by
    rw [← hDlen]
    exact length_of_mem_cartesianProd hp
  have hqlen : q.length = cfg.shape.length := by
    rw [← hDlen]
    exact length_of_mem_cartesianProd hq
  have hmem_p : ∀ d, d < cfg.shape.length →
      p.getD d 0 ∈ (dimIndices cfg).getD d [] := by
    intro d hd
    exact getD_mem_of_mem_cartesianProd hp (by omega)
  have hmem_q : ∀ d, d < cfg.shape.length →
      q.getD d 0 ∈ (dimIndices cfg).getD d [] := by
    intro d hd
    exact getD_mem_of_mem_cartesianProd hq (by omega)
  have hsx_mem : cfg.spatialDims.1 ∈ spatialList cfg := by
    simp [spatialList]
  have hsy_mem : cfg.spatialDims.2.1 ∈ spatialList cfg := by
    simp [spatialList]
  have hsz_mem : cfg.spatialDims.2.2 ∈ spatialList cfg := by
    simp [spatialList]
  have hslot_lt : ∀ d, some d ∈ spatialList cfg → d < cfg.shape.length := by
    intro d hd
    exact hspvalid d (List.mem_filterMap.mpr ⟨some d, hd, rfl⟩)
  have hcast_p : ∀ slot ∈ spatialList cfg,
      spatialRank (dimIndices cfg) slot p = (spatialRankNat (dimIndices cfg) slot p : Int) := by
    intro slot hslot
    exact spatialRank_eq_cast (fun d hd => hmem_p d (hslot_lt d (hd ▸ hslot)))
  have hcast_q : ∀ slot ∈ spatialList cfg,
      spatialRank (dimIndices cfg) slot q = (spatialRankNat (dimIndices cfg) slot q : Int) := by
    intro slot hslot
    exact spatialRank_eq_cast (fun d hd => hmem_q d (hslot_lt d (hd ▸ hslot)))
  have hrank_lt_p : ∀ slot ∈ spatialList cfg,
      spatialRankNat (dimIndices cfg) slot p < blockSize (dimIndices cfg) slot := by
    intro slot hslot
    cases slot with
    | none => exact Nat.zero_lt_one
    | some d =>
        show rankNat _ p d < ((dimIndices cfg).getD d []).length
        exact List.indexOf_lt_length.mpr (hmem_p d (hslot_lt d hslot))
  have hrank_lt_q : ∀ slot ∈ spatialList cfg,
      spatialRankNat (dimIndices cfg) slot q < blockSize (dimIndices cfg) slot := by
    intro slot hslot
    cases slot with
    | none => exact Nat.zero_lt_one
    | some d =>
        show rankNat _ q d < ((dimIndices cfg).getD d []).length
        exact List.indexOf_lt_length.mpr (hmem_q d (hslot_lt d hslot))
  have hspatial_eq : ∀ d, some d ∈ spatialList cfg →
      spatialRankNat (dimIndices cfg) (some d) p = spatialRankNat (dimIndices cfg) (some d) q →
      p.getD d 0 = q.getD d 0 := by
    intro d hd hreq
    have hlt := hslot_lt d hd
    exact (List.indexOf_inj (hmem_p d hlt) (hmem_q d hlt)).mp hreq
  -- conclude `p = q` once every coordinate agrees
  have hfinish : (∀ d, d < cfg.shape.length → p.getD d 0 = q.getD d 0) → p = q := by
    intro hgetD
    apply List.ext_getElem (by omega)
    intro i h1 h2
    have hi : i < cfg.shape.length := by omega
    have := hgetD i hi
    rwa [List.getD_eq_getElem _ _ h1, List.getD_eq_getElem _ _ h2] at this
  rcases hmo : cfg.mode with - | -
  case slicing =>
    have hat : activeTileDims cfg = [] := by
      simp [activeTileDims, hmo]
    have hexpand : ∀ r : List Nat, rawPosition cfg r =
        (spatialRank (dimIndices cfg) cfg.spatialDims.1 r,
         -spatialRank (dimIndices cfg) cfg.spatialDims.2.1 r,
         -spatialRank (dimIndices cfg) cfg.spatialDims.2.2 r) := by
      intro r
      show (_ + _, _, _) = _
      rw [hat]
      show (_ + (0 : Int), -_ - (0 : Int), -_ - (0 : Int)) = _
      simp
    rw [hexpand p, hexpand q] at hraw
    have hX : spatialRankNat (dimIndices cfg) cfg.spatialDims.1 p =
        spatialRankNat (dimIndices cfg) cfg.spatialDims.1 q := by
      have h1 := congrArg Prod.fst hraw
      simp only at h1
      rw [hcast_p _ hsx_mem, hcast_q _ hsx_mem] at h1
      exact_mod_cast h1
    have hY : spatialRankNat (dimIndices cfg) cfg.spatialDims.2.1 p =
        spatialRankNat (dimIndices cfg) cfg.spatialDims.2.1 q := by
      have h1 := congrArg (fun t : Int × Int × Int => t.2.1) hraw
      simp only at h1
      rw [hcast_p _ hsy_mem, hcast_q _ hsy_mem] at h1
      have h2 := neg_inj.mp h1
      exact_mod_cast h2
    have hZ : spatialRankNat (dimIndices cfg) cfg.spatialDims.2.2 p =
        spatialRankNat (dimIndices cfg) cfg.spatialDims.2.2 q := by
      have h1 := congrArg (fun t : Int × Int × Int => t.2.2) hraw
      simp only at h1
      rw [hcast_p _ hsz_mem, hcast_q _ hsz_mem] at h1
      have h2 := neg_inj.mp h1
      exact_mod_cast h2
    apply hfinish
    intro d hd
    by_cases hsp : d ∈ spatialIdx cfg
    · obtain ⟨o, ho, hod⟩ := List.mem_filterMap.mp hsp
      have hod' : o = some d := hod
      subst hod'
      simp only [spatialList, List.mem_cons, List.not_mem_nil, or_false] at ho
      rcases ho with ho | ho | ho
      · have hds : cfg.spatialDims.1 = some d := ho.symm
        refine hspatial_eq d (by rw [← hds]; exact hsx_mem) ?_
        rw [← hds]
        exact hX
      · have hds : cfg.spatialDims.2.1 = some d := ho.symm
        refine hspatial_eq d (by rw [← hds]; exact hsy_mem) ?_
        rw [← hds]
        exact hY
      · have hds : cfg.spatialDims.2.2 = some d := ho.symm
        refine hspatial_eq d (by rw [← hds]; exact hsz_mem) ?_
        rw [← hds]
        exact hZ
    · have hout : d ∈ cfg.outerDims :=
        hcover d (List.mem_range.mpr hd) hsp
      have hpage : d ∈ activePageDims cfg := by
        simpa [activePageDims, hmo] using hout
      have hsingle := dimIndices_getD cfg hd
      rw [if_pos hpage] at hsingle
      have h1 := hmem_p d hd
      have h2 := hmem_q d hd
      rw [hsingle, List.mem_singleton] at h1 h2
      rw [h1, h2]
  case tiling =>
    have hat : activeTileDims cfg = cfg.outerDims := by
      simp [activeTileDims, hmo]
    have hts : tileSteps cfg = tileStepsAux (dimIndices cfg) cfg.outerDims 0
        (stepYBase cfg) (stepXBase cfg) (stepZBase cfg) := by
      simp [tileSteps, hmo]
    have hkeys : (tileSteps cfg).map (fun e => e.1) = cfg.outerDims := by
      rw [hts]
      exact tileStepsAux_keys (dimIndices cfg) cfg.outerDims 0 _ _ _
    have hkeysnd : ((tileSteps cfg).map (fun e => e.1)).Nodup := by
      rw [hkeys]
      exact hodnodup
    have hmem_ts : ∀ (r : List Nat),
        (∀ d, d < cfg.shape.length → r.getD d 0 ∈ (dimIndices cfg).getD d []) →
        ∀ e ∈ tileSteps cfg, r.getD e.1 0 ∈ (dimIndices cfg).getD e.1 [] := by
      intro r hm e he
      have hd : e.1 ∈ cfg.outerDims := by
        rw [← hkeys]
        exact List.mem_map_of_mem _ he
      exact hm e.1 (houter e.1 hd).1
    have hdecomp : ∀ (r : List Nat),
        (∀ e ∈ tileSteps cfg, r.getD e.1 0 ∈ (dimIndices cfg).getD e.1 []) →
        tileAdds (dimIndices cfg) (tileSteps cfg) (activeTileDims cfg) r =
          ((tileSumN (dimIndices cfg) r (stepsOn (dimIndices cfg) Axis.x (tileSteps cfg)) : Int),
           (tileSumN (dimIndices cfg) r (stepsOn (dimIndices cfg) Axis.y (tileSteps cfg)) : Int),
           (tileSumN (dimIndices cfg) r (stepsOn (dimIndices cfg) Axis.z (tileSteps cfg)) : Int)) := by
      intro r hm
      rw [hat, ← hkeys]
      exact tileAdds_decompose _ _ _ hkeysnd hm
    have hXp : (rawPosition cfg p).1 =
        ((spatialRankNat (dimIndices cfg) cfg.spatialDims.1 p +
          tileSumN (dimIndices cfg) p (stepsOn (dimIndices cfg) Axis.x (tileSteps cfg)) : Nat) : Int) := by
      show spatialRank _ _ p + (tileAdds _ _ _ p).1 = _
      rw [hdecomp p (hmem_ts p hmem_p), hcast_p _ hsx_mem]
      push_cast
      ring
    have hXq : (rawPosition cfg q).1 =
        ((spatialRankNat (dimIndices cfg) cfg.spatialDims.1 q +
          tileSumN (dimIndices cfg) q (stepsOn (dimIndices cfg) Axis.x (tileSteps cfg)) : Nat) : Int) := by
      show spatialRank _ _ q + (tileAdds _ _ _ q).1 = _
      rw [hdecomp q (hmem_ts q hmem_q), hcast_q _ hsx_mem]
      push_cast
      ring
    have hYp : (rawPosition cfg p).2.1 =
        -((spatialRankNat (dimIndices cfg) cfg.spatialDims.2.1 p +
          tileSumN (dimIndices cfg) p (stepsOn (dimIndices cfg) Axis.y (tileSteps cfg)) : Nat) : Int) := by
      show -spatialRank _ _ p - (tileAdds _ _ _ p).2.1 = _
      rw [hdecomp p (hmem_ts p hmem_p), hcast_p _ hsy_mem]
      push_cast
      ring
    have hYq : (rawPosition cfg q).2.1 =
        -((spatialRankNat (dimIndices cfg) cfg.spatialDims.2.1 q +
          tileSumN (dimIndices cfg) q (stepsOn (dimIndices cfg) Axis.y (tileSteps cfg)) : Nat) : Int) := by
      show -spatialRank _ _ q - (tileAdds _ _ _ q).2.1 = _
      rw [hdecomp q (hmem_ts q hmem_q), hcast_q _ hsy_mem]
      push_cast
      ring
    have hZp : (rawPosition cfg p).2.2 =
        -((spatialRankNat (dimIndices cfg) cfg.spatialDims.2.2 p +
          tileSumN (dimIndices cfg) p (stepsOn (dimIndices cfg) Axis.z (tileSteps cfg)) : Nat) : Int) := by
      show -spatialRank _ _ p - (tileAdds _ _ _ p).2.2 = _
      rw [hdecomp p (hmem_ts p hmem_p), hcast_p _ hsz_mem]
      push_cast
      ring
    have hZq : (rawPosition cfg q).2.2 =
        -((spatialRankNat (dimIndices cfg) cfg.spatialDims.2.2 q +
          tileSumN (dimIndices cfg) q (stepsOn (dimIndices cfg) Axis.z (tileSteps cfg)) : Nat) : Int) := by
      show -spatialRank _ _ q - (tileAdds _ _ _ q).2.2 = _
      rw [hdecomp q (hmem_ts q hmem_q), hcast_q _ hsz_mem]
      push_cast
      ring
    have hXeq : spatialRankNat (dimIndices cfg) cfg.spatialDims.1 p +
        tileSumN (dimIndices cfg) p (stepsOn (dimIndices cfg) Axis.x (tileSteps cfg)) =
        spatialRankNat (dimIndices cfg) cfg.spatialDims.1 q +
        tileSumN (dimIndices cfg) q (stepsOn (dimIndices cfg) Axis.x (tileSteps cfg)) := by
      have h1 := congrArg Prod.fst hraw
      simp only at h1
      rw [hXp, hXq] at h1
      exact_mod_cast h1
    have hYeq : spatialRankNat (dimIndices cfg) cfg.spatialDims.2.1 p +
        tileSumN (dimIndices cfg) p (stepsOn (dimIndices cfg) Axis.y (tileSteps cfg)) =
        spatialRankNat (dimIndices cfg) cfg.spatialDims.2.1 q +
        tileSumN (dimIndices cfg) q (stepsOn (dimIndices cfg) Axis.y (tileSteps cfg)) := by
      have h1 := congrArg (fun t : Int × Int × Int => t.2.1) hraw
      simp only at h1
      rw [hYp, hYq] at h1
      exact_mod_cast neg_inj.mp h1
    have hZeq : spatialRankNat (dimIndices cfg) cfg.spatialDims.2.2 p +
        tileSumN (dimIndices cfg) p (stepsOn (dimIndices cfg) Axis.z (tileSteps cfg)) =
        spatialRankNat (dimIndices cfg) cfg.spatialDims.2.2 q +
        tileSumN (dimIndices cfg) q (stepsOn (dimIndices cfg) Axis.z (tileSteps cfg)) := by
      have h1 := congrArg (fun t : Int × Int × Int => t.2.2) hraw
      simp only at h1
      rw [hZp, hZq] at h1
      exact_mod_cast neg_inj.mp h1
    have hchains := tileStepsAux_chain (dimIndices cfg) cfg.outerDims 0
      (stepYBase cfg) (stepXBase cfg) (stepZBase cfg)
    rw [← hts] at hchains
    have hblock : ∀ slot ∈ spatialList cfg, 1 ≤ blockSize (dimIndices cfg) slot := by
      intro slot hslot
      cases slot with
      | none => exact le_refl 1
      | some d =>
          show 1 ≤ ((dimIndices cfg).getD d []).length
          have := dimIndices_entry_ne_nil cfg hpos (hslot_lt d hslot)
          have hlp := List.length_pos.mpr this
          omega
    have hdig : ∀ (r : List Nat),
        (∀ d, d < cfg.shape.length → r.getD d 0 ∈ (dimIndices cfg).getD d []) →
        ∀ (a : Axis), ∀ e ∈ stepsOn (dimIndices cfg) a (tileSteps cfg),
          rankNat (dimIndices cfg) r e.1 < e.2.1 := by
      intro r hm a e he
      obtain ⟨e', he', rfl⟩ := List.mem_map.mp he
      have he'ts : e' ∈ tileSteps cfg := (List.mem_filter.mp he').1
      have hd : e'.1 ∈ cfg.outerDims := by
        rw [← hkeys]
        exact List.mem_map_of_mem _ he'ts
      have hlt : e'.1 < cfg.shape.length := (houter e'.1 hd).1
      show rankNat _ r e'.1 < ((dimIndices cfg).getD e'.1 []).length
      exact List.indexOf_lt_length.mpr (hm e'.1 hlt)
    have hstepX3 : 3 ≤ stepXBase cfg := by
      have := hblock _ hsx_mem
      show 3 ≤ blockSize (dimIndices cfg) cfg.spatialDims.1 + SPACING
      simp only [SPACING]
      omega
    have hstepY3 : 3 ≤ stepYBase cfg := by
      have := hblock _ hsy_mem
      show 3 ≤ blockSize (dimIndices cfg) cfg.spatialDims.2.1 + SPACING
      simp only [SPACING]
      omega
    have hstepZ3 : 3 ≤ stepZBase cfg := by
      have := hblock _ hsz_mem
      show 3 ≤ blockSize (dimIndices cfg) cfg.spatialDims.2.2 + SPACING
      simp only [SPACING]
      omega
    have hrx_p : spatialRankNat (dimIndices cfg) cfg.spatialDims.1 p ≤ stepXBase cfg - 3 := by
      have h1 := hrank_lt_p _ hsx_mem
      show _ ≤ blockSize (dimIndices cfg) cfg.spatialDims.1 + SPACING - 3
      simp only [SPACING]
      omega
    have hrx_q : spatialRankNat (dimIndices cfg) cfg.spatialDims.1 q ≤ stepXBase cfg - 3 := by
      have h1 := hrank_lt_q _ hsx_mem
      show _ ≤ blockSize (dimIndices cfg) cfg.spatialDims.1 + SPACING - 3
      simp only [SPACING]
      omega
    have hry_p : spatialRankNat (dimIndices cfg) cfg.spatialDims.2.1 p ≤ stepYBase cfg - 3 := by
      have h1 := hrank_lt_p _ hsy_mem
      show _ ≤ blockSize (dimIndices cfg) cfg.spatialDims.2.1 + SPACING - 3
      simp only [SPACING]
      omega
    have hry_q : spatialRankNat (dimIndices cfg) cfg.spatialDims.2.1 q ≤ stepYBase cfg - 3 := by
      have h1 := hrank_lt_q _ hsy_mem
      show _ ≤ blockSize (dimIndices cfg) cfg.spatialDims.2.1 + SPACING - 3
      simp only [SPACING]
      omega
    have hrz_p : spatialRankNat (dimIndices cfg) cfg.spatialDims.2.2 p ≤ stepZBase cfg - 3 := by
      have h1 := hrank_lt_p _ hsz_mem
      show _ ≤ blockSize (dimIndices cfg) cfg.spatialDims.2.2 + SPACING - 3
      simp only [SPACING]
      omega
    have hrz_q : spatialRankNat (dimIndices cfg) cfg.spatialDims.2.2 q ≤ stepZBase cfg - 3 := by
      have h1 := hrank_lt_q _ hsz_mem
      show _ ≤ blockSize (dimIndices cfg) cfg.spatialDims.2.2 + SPACING - 3
      simp only [SPACING]
      omega
    obtain ⟨hRX, hdigX⟩ := stepChain_inj (dimIndices cfg) p q
      (stepsOn (dimIndices cfg) Axis.x (tileSteps cfg)) (stepXBase cfg) _ _
      hchains.2.1 hstepX3 hrx_p hrx_q (hdig p hmem_p Axis.x) (hdig q hmem_q Axis.x) hXeq
    obtain ⟨hRY, hdigY⟩ := stepChain_inj (dimIndices cfg) p q
      (stepsOn (dimIndices cfg) Axis.y (tileSteps cfg)) (stepYBase cfg) _ _
      hchains.1 hstepY3 hry_p hry_q (hdig p hmem_p Axis.y) (hdig q hmem_q Axis.y) hYeq
    obtain ⟨hRZ, hdigZ⟩ := stepChain_inj (dimIndices cfg) p q
      (stepsOn (dimIndices cfg) Axis.z (tileSteps cfg)) (stepZBase cfg) _ _
      hchains.2.2 hstepZ3 hrz_p hrz_q (hdig p hmem_p Axis.z) (hdig q hmem_q Axis.z) hZeq
    apply hfinish
    intro d hd
    by_cases hsp : d ∈ spatialIdx cfg
    · obtain ⟨o, ho, hod⟩ := List.mem_filterMap.mp hsp
      have hod' : o = some d := hod
      subst hod'
      simp only [spatialList, List.mem_cons, List.not_mem_nil, or_false] at ho
      rcases ho with ho | ho | ho
      · have hds : cfg.spatialDims.1 = some d := ho.symm
        refine hspatial_eq d (by rw [← hds]; exact hsx_mem) ?_
        rw [← hds]
        exact hRX
      · have hds : cfg.spatialDims.2.1 = some d := ho.symm
        refine hspatial_eq d (by rw [← hds]; exact hsy_mem) ?_
        rw [← hds]
        exact hRY
      · have hds : cfg.spatialDims.2.2 = some d := ho.symm
        refine hspatial_eq d (by rw [← hds]; exact hsz_mem) ?_
        rw [← hds]
        exact hRZ
    · have hout : d ∈ cfg.outerDims :=
        hcover d (List.mem_range.mpr hd) hsp
      have hdkeys : d ∈ (tileSteps cfg).map (fun e => e.1) := by
        rw [hkeys]
        exact hout
      obtain ⟨e, hets, hed⟩ := List.mem_map.mp hdkeys
      have hrank_eq : rankNat (dimIndices cfg) p e.1 = rankNat (dimIndices cfg) q e.1 := by
        rcases he2 : e.2.1 with - | - | -
        case x =>
            refine hdigX (e.1, ((dimIndices cfg).getD e.1 []).length, e.2.2) ?_
            refine List.mem_map.mpr ⟨e, List.mem_filter.mpr ⟨hets, by simp [he2]⟩, rfl⟩
        case y =>
            refine hdigY (e.1, ((dimIndices cfg).getD e.1 []).length, e.2.2) ?_
            refine List.mem_map.mpr ⟨e, List.mem_filter.mpr ⟨hets, by simp [he2]⟩, rfl⟩
        case z =>
            refine hdigZ (e.1, ((dimIndices cfg).getD e.1 []).length, e.2.2) ?_
            refine List.mem_map.mpr ⟨e, List.mem_filter.mpr ⟨hets, by simp [he2]⟩, rfl⟩
      rw [hed] at hrank_eq
      exact (List.indexOf_inj (hmem_p d hd) (hmem_q d hd)).mp hrank_eq

theorem int_cast_abs_lt_one {n : Int} (h : |(n : ℚ)| < 1) : n = 0 := by
  by_contra h0
  have h1 : 1 ≤ |n| := Int.one_le_abs h0
  have h2 : (1 : ℚ) ≤ |(n : ℚ)| := by
    rw [← Int.cast_abs]
    exact_mod_cast h1
  linarith

/-- C5: for every valid configuration, any two instances at distinct
output positions have coordinates that differ by at least 1 along some
axis (pre-centering positions are integers and the compounding-step
encoding is injective, so distinct index paths land on distinct integer
triples). -/
theorem no_cube_overlap (cfg : LayoutConfig) (hval : ValidConfig cfg) :
    ∀ i j : Nat, i < (computeLayout cfg).length → j < (computeLayout cfg).length →
      i ≠ j →
      1 ≤ |((computeLayout cfg).getD i dummyInst).position.1 -
            ((computeLayout cfg).getD j dummyInst).position.1| ∨
      1 ≤ |((computeLayout cfg).getD i dummyInst).position.2.1 -
            ((computeLayout cfg).getD j dummyInst).position.2.1| ∨
      1 ≤ |((computeLayout cfg).getD i dummyInst).position.2.2 -
            ((computeLayout cfg).getD j dummyInst).position.2.2| := by
  intro i j hi hj hij
  have hsh : cfg.shape ≠ [] := by
    intro h
    rw [computeLayout, if_pos h] at hi
    simp at hi
  have hCL := computeLayout_eq cfg hsh
  have hlen : (computeLayout cfg).length =
      (cartesianProd (dimIndices cfg)).length := by
    rw [hCL, centerPositions_length, List.length_map]
  have hip : i < (cartesianProd (dimIndices cfg)).length := by omega
  have hjp : j < (cartesianProd (dimIndices cfg)).length := by omega
  have hlne : (cartesianProd (dimIndices cfg)).map (mkInstance cfg) ≠ [] := by
    intro h0
    have : (computeLayout cfg).length = 0 := by
      rw [hCL, h0]
      rfl
    omega
  have hposk : ∀ k : Nat, k < (cartesianProd (dimIndices cfg)).length →
      ((computeLayout cfg).getD k dummyInst).position =
        (((rawPosition cfg ((cartesianProd (dimIndices cfg)).getD k [])).1 : ℚ) -
           centerX ((cartesianProd (dimIndices cfg)).map (mkInstance cfg)),
         ((rawPosition cfg ((cartesianProd (dimIndices cfg)).getD k [])).2.1 : ℚ) -
           centerY ((cartesianProd (dimIndices cfg)).map (mkInstance cfg)),
         ((rawPosition cfg ((cartesianProd (dimIndices cfg)).getD k [])).2.2 : ℚ) -
           centerZ ((cartesianProd (dimIndices cfg)).map (mkInstance cfg))) := by
    intro k hk
    have hk1 : k < (((cartesianProd (dimIndices cfg)).map (mkInstance cfg)).map
        (fun inst => { inst with position :=
          (inst.position.1 - centerX ((cartesianProd (dimIndices cfg)).map (mkInstance cfg)),
           inst.position.2.1 - centerY ((cartesianProd (dimIndices cfg)).map (mkInstance cfg)),
           inst.position.2.2 - centerZ ((cartesianProd (dimIndices cfg)).map (mkInstance cfg))) })).length := by
      simpa using hk
    have hk2 : k < ((cartesianProd (dimIndices cfg)).map (mkInstance cfg)).length := by
      simpa using hk
    rw [hCL, centerPositions_eq_map hlne, List.getD_eq_getElem _ _ hk1,
      List.getElem_map, List.getElem_map, List.getD_eq_getElem _ _ hk]
    rfl
  have hpne : (cartesianProd (dimIndices cfg)).getD i [] ≠
      (cartesianProd (dimIndices cfg)).getD j [] := by
    rw [List.getD_eq_getElem _ _ hip, List.getD_eq_getElem _ _ hjp]
    intro hcon
    exact hij (((cartesianProd_nodup (dimIndices_nodup_all cfg)).getElem_inj_iff).mp hcon)
  by_contra hcon
  push_neg at hcon
  obtain ⟨hc1, hc2, hc3⟩ := hcon
  rw [hposk i hip, hposk j hjp] at hc1 hc2 hc3
  have hd1 : (rawPosition cfg ((cartesianProd (dimIndices cfg)).getD i [])).1 =
      (rawPosition cfg ((cartesianProd (dimIndices cfg)).getD j [])).1 := by
    have h0 := int_cast_abs_lt_one (n :=
      (rawPosition cfg ((cartesianProd (dimIndices cfg)).getD i [])).1 -
      (rawPosition cfg ((cartesianProd (dimIndices cfg)).getD j [])).1) ?_
    · omega
    · have hsimp : ((((rawPosition cfg ((cartesianProd (dimIndices cfg)).getD i [])).1 -
          (rawPosition cfg ((cartesianProd (dimIndices cfg)).getD j [])).1 : Int)) : ℚ) =
          (((rawPosition cfg ((cartesianProd (dimIndices cfg)).getD i [])).1 : ℚ) -
            centerX ((cartesianProd (dimIndices cfg)).map (mkInstance cfg))) -
          (((rawPosition cfg ((cartesianProd (dimIndices cfg)).getD j [])).1 : ℚ) -
            centerX ((cartesianProd (dimIndices cfg)).map (mkInstance cfg))) := by
        push_cast
        ring
      rw [hsimp]
      exact hc1
  have hd2 : (rawPosition cfg ((cartesianProd (dimIndices cfg)).getD i [])).2.1 =
      (rawPosition cfg ((cartesianProd (dimIndices cfg)).getD j [])).2.1 := by
    have h0 := int_cast_abs_lt_one (n :=
      (rawPosition cfg ((cartesianProd (dimIndices cfg)).getD i [])).2.1 -
      (rawPosition cfg ((cartesianProd (dimIndices cfg)).getD j [])).2.1) ?_
    · omega
    · have hsimp : ((((rawPosition cfg ((cartesianProd (dimIndices cfg)).getD i [])).2.1 -
          (rawPosition cfg ((cartesianProd (dimIndices cfg)).getD j [])).2.1 : Int)) : ℚ) =
          (((rawPosition cfg ((cartesianProd (dimIndices cfg)).getD i [])).2.1 : ℚ) -
            centerY ((cartesianProd (dimIndices cfg)).map (mkInstance cfg))) -
          (((rawPosition cfg ((cartesianProd (dimIndices cfg)).getD j [])).2.1 : ℚ) -
            centerY ((cartesianProd (dimIndices cfg)).map (mkInstance cfg))) := by
        push_cast
        ring
      rw [hsimp]
      exact hc2
  have hd3 : (rawPosition cfg ((cartesianProd (dimIndices cfg)).getD i [])).2.2 =
      (rawPosition cfg ((cartesianProd (dimIndices cfg)).getD j [])).2.2 := by
    have h0 := int_cast_abs_lt_one (n :=
      (rawPosition cfg ((cartesianProd (dimIndices cfg)).getD i [])).2.2 -
      (rawPosition cfg ((cartesianProd (dimIndices cfg)).getD j [])).2.2) ?_
    · omega
    · have hsimp : ((((rawPosition cfg ((cartesianProd (dimIndices cfg)).getD i [])).2.2 -
          (rawPosition cfg ((cartesianProd (dimIndices cfg)).getD j [])).2.2 : Int)) : ℚ) =
          (((rawPosition cfg ((cartesianProd (dimIndices cfg)).getD i [])).2.2 : ℚ) -
            centerZ ((cartesianProd (dimIndices cfg)).map (mkInstance cfg))) -
          (((rawPosition cfg ((cartesianProd (dimIndices cfg)).getD j [])).2.2 : ℚ) -
            centerZ ((cartesianProd (dimIndices cfg)).map (mkInstance cfg))) := by
        push_cast
        ring
      rw [hsimp]
      exact hc3
  have hmem_i : (cartesianProd (dimIndices cfg)).getD i [] ∈ cartesianProd (dimIndices cfg) := by
    rw [List.getD_eq_getElem _ _ hip]
    exact List.getElem_mem hip
  have hmem_j : (cartesianProd (dimIndices cfg)).getD j [] ∈ cartesianProd (dimIndices cfg) := by
    rw [List.getD_eq_getElem _ _ hjp]
    exact List.getElem_mem hjp
  apply hpne
  apply rawPosition_inj cfg hval hmem_i hmem_j
  have hx := hd1
  have hy := hd2
  have hz := hd3
  cases hr1 : rawPosition cfg ((cartesianProd (dimIndices cfg)).getD i []) with
  | mk a1 rest1 =>
      cases hr2 : rawPosition cfg ((cartesianProd (dimIndices cfg)).getD j []) with
      | mk a2 rest2 =>
          rw [hr1, hr2] at hx hy hz
          cases rest1 with
          | mk b1 c1 =>
              cases rest2 with
              | mk b2 c2 =>
                  simp only at hx hy hz
                  rw [hx, hy, hz]

theorem no_cube_overlap_witness :
    1 ≤ |((computeLayout cfgLine).getD 0 dummyInst).position.1 -
          ((computeLayout cfgLine).getD 1 dummyInst).position.1| ∨
    1 ≤ |((computeLayout cfgLine).getD 0 dummyInst).position.2.1 -
          ((computeLayout cfgLine).getD 1 dummyInst).position.2.1| ∨
    1 ≤ |((computeLayout cfgLine).getD 0 dummyInst).position.2.2 -
          ((computeLayout cfgLine).getD 1 dummyInst).position.2.2| :=
  no_cube_overlap cfgLine (by decide) 0 1 (by decide) (by decide) (by decide)

end TensorBoxViz
